import Mathlib

/-!
Verification of the relational normalization engine and the SQL construction
helpers of the DBMS-Project backend
(`backend/api/normalization_utils.py`, `backend/api/normalization_routes.py`,
`backend/api/helpers.py`).

Modelling conventions:
* attributes are strings; attribute sets are `Finset String`, mirroring the
  Python `set`/`frozenset` values;
* an FD collection (the Python insertion-ordered dict
  `{frozenset(determinants): set(dependents)}`) is a `List FD` of
  (determinant set, dependent set) pairs in insertion order;
* Python iteration over a `set`/`frozenset` has unspecified order; wherever
  the source iterates over a set we iterate over its lexicographically sorted
  element list (`sortedList`).  Every property proved below is independent of
  that choice, and it also matches the source's explicit `sorted(...)` calls.
* Python's built-in string order is code-point lexicographic; `strLe` below
  implements exactly that on `String.data` (Lean's own `String.le` is not
  kernel-reducible, so it is not used).
-/

set_option maxHeartbeats 1000000

/-- Code-point lexicographic comparison of character lists, as Python compares
strings. -/
def lexLeChars : List Char → List Char → Bool
  | [], _ => true
  | _ :: _, [] => false
  | a :: as, b :: bs => if a < b then true else if b < a then false else lexLeChars as bs

theorem lexLeChars_cons (a b : Char) (as bs : List Char) :
    lexLeChars (a :: as) (b :: bs) =
      if a < b then true else if b < a then false else lexLeChars as bs := rfl

/-- Python string order (`a <= b`). -/
def strLe (a b : String) : Prop := lexLeChars a.data b.data = true

instance : DecidableRel strLe := fun _ _ => inferInstanceAs (Decidable (_ = true))

theorem lexLeChars_total : ∀ l₁ l₂ : List Char, lexLeChars l₁ l₂ = true ∨ lexLeChars l₂ l₁ = true
  | [], _ => Or.inl rfl
  | _ :: _, [] => Or.inr rfl
  | a :: as, b :: bs => by
    rcases lt_trichotomy a b with h | h | h
    · exact Or.inl (by rw [lexLeChars_cons, if_pos h])
    · subst h
      rcases lexLeChars_total as bs with ih | ih
      · exact Or.inl (by rw [lexLeChars_cons, if_neg (lt_irrefl a), if_neg (lt_irrefl a)]; exact ih)
      · exact Or.inr (by rw [lexLeChars_cons, if_neg (lt_irrefl a), if_neg (lt_irrefl a)]; exact ih)
    · exact Or.inr (by rw [lexLeChars_cons, if_pos h])

theorem lexLeChars_trans : ∀ l₁ l₂ l₃ : List Char, lexLeChars l₁ l₂ = true →
    lexLeChars l₂ l₃ = true → lexLeChars l₁ l₃ = true
  | [], _, _, _, _ => rfl
  | _ :: _, [], _, h, _ => by exact absurd h (by simp [lexLeChars])
  | _ :: _, _ :: _, [], _, h => by exact absurd h (by simp [lexLeChars])
  | a :: as, b :: bs, c :: cs, h₁, h₂ => by
    rw [lexLeChars_cons] at h₁ h₂ ⊢
    rcases lt_trichotomy a b with hab | hab | hab
    · rcases lt_trichotomy b c with hbc | hbc | hbc
      · rw [if_pos (lt_trans hab hbc)]
      · subst hbc; rw [if_pos hab]
      · rw [if_neg (asymm hbc), if_pos hbc] at h₂; exact absurd h₂ (by simp)
    · subst hab
      rcases lt_trichotomy a c with hac | hac | hac
      · rw [if_pos hac]
      · subst hac
        rw [if_neg (lt_irrefl a), if_neg (lt_irrefl a)] at h₁ h₂ ⊢
        exact lexLeChars_trans as bs cs h₁ h₂
      · rw [if_neg (asymm hac), if_pos hac] at h₂; exact absurd h₂ (by simp)
    · rw [if_neg (asymm hab), if_pos hab] at h₁; exact absurd h₁ (by simp)

theorem lexLeChars_antisymm : ∀ l₁ l₂ : List Char, lexLeChars l₁ l₂ = true →
    lexLeChars l₂ l₁ = true → l₁ = l₂
  | [], [], _, _ => rfl
  | [], _ :: _, _, h => by exact absurd h (by simp [lexLeChars])
  | _ :: _, [], h, _ => by exact absurd h (by simp [lexLeChars])
  | a :: as, b :: bs, h₁, h₂ => by
    rw [lexLeChars_cons] at h₁ h₂
    rcases lt_trichotomy a b with hab | hab | hab
    · rw [if_neg (asymm hab), if_pos hab] at h₂; exact absurd h₂ (by simp)
    · subst hab
      rw [if_neg (lt_irrefl a), if_neg (lt_irrefl a)] at h₁ h₂
      rw [lexLeChars_antisymm as bs h₁ h₂]
    · rw [if_neg (asymm hab), if_pos hab] at h₁; exact absurd h₁ (by simp)

instance : IsTotal String strLe := ⟨fun a b => lexLeChars_total a.data b.data⟩
instance : IsTrans String strLe := ⟨fun a b c => lexLeChars_trans a.data b.data c.data⟩
instance : IsAntisymm String strLe :=
  ⟨fun a b h₁ h₂ => String.ext (lexLeChars_antisymm a.data b.data h₁ h₂)⟩

/-- Deterministic extraction of the elements of a `Finset String` as a sorted
list.  This stands in for Python's `sorted(list(s))` and (up to the irrelevant
order) for plain iteration over a Python set. -/
def sortedList (s : Finset String) : List String :=
  Quotient.lift (List.insertionSort strLe)
    (fun l₁ l₂ h => List.eq_of_perm_of_sorted
      (((List.perm_insertionSort _ l₁).trans h).trans (List.perm_insertionSort _ l₂).symm)
      (List.sorted_insertionSort _ l₁) (List.sorted_insertionSort _ l₂)) s.val

theorem mem_sortedList {s : Finset String} {a : String} : a ∈ sortedList s ↔ a ∈ s := by
  cases s with
  | mk val nd =>
    induction val using Quotient.inductionOn with
    | h l =>
      show a ∈ List.insertionSort strLe l ↔ _
      rw [(List.perm_insertionSort strLe l).mem_iff]
      simp [Finset.mem_mk]

theorem sortedList_nodup (s : Finset String) : (sortedList s).Nodup := by
  cases s with
  | mk val nd =>
    induction val using Quotient.inductionOn with
    | h l =>
      exact ((List.perm_insertionSort strLe l).nodup_iff).mpr (Multiset.coe_nodup.mp nd)

theorem sortedList_toFinset (s : Finset String) : (sortedList s).toFinset = s :=
  Finset.ext fun x => by rw [List.mem_toFinset, mem_sortedList]

theorem sortedList_length (s : Finset String) : (sortedList s).length = s.card := by
  cases s with
  | mk val nd =>
    induction val using Quotient.inductionOn with
    | h l => exact (List.perm_insertionSort strLe l).length_eq

/-- A functional dependency `X → Y`: a determinant set paired with a dependent
set, one entry of the Python dict `{frozenset: set}`. -/
abbrev FD := Finset String × Finset String

/-- One pass of the `while changed` loop of `calculate_closure`
(`normalization_utils.py` lines 66-76): for every FD whose determinant is
contained in the working set, the dependents are added.  (When the dependents
are already contained the source skips the update; since
`acc ∪ fd.2 = acc` in that case, the unconditional union below computes the
same set.) -/
def closurePass (fds : List FD) (c : Finset String) : Finset String :=
  fds.foldl (fun acc fd => if fd.1 ⊆ acc then acc ∪ fd.2 else acc) c

/-- All attributes occurring as dependents of some FD.  A pass of the closure
loop can only add attributes from this set, so `(depsUnion fds).card + 1`
passes always reach the fixpoint at which the source's `while changed` loop
stops. -/
def depsUnion : List FD → Finset String
  | [] => ∅
  | fd :: t => fd.2 ∪ depsUnion t

def closureAux (fds : List FD) : Nat → Finset String → Finset String
  | 0, c => c
  | n + 1, c =>
    let c2 := closurePass fds c
    if c2 = c then c else closureAux fds n c2

/-- `calculate_closure` (`normalization_utils.py` lines 62-77).  The
`all_attributes` argument is accepted and, exactly as in the source, never
used. -/
def calculate_closure (attributes_to_close : Finset String) (fds : List FD)
    (all_attributes : Finset String) : Finset String :=
  closureAux fds ((depsUnion fds).card + 1) attributes_to_close

theorem subset_closurePass (fds : List FD) (c : Finset String) : c ⊆ closurePass fds c := by
  induction fds generalizing c with
  | nil => exact Finset.Subset.refl c
  | cons g t ih =>
    show c ⊆ List.foldl _ (if g.1 ⊆ c then c ∪ g.2 else c) t
    refine Finset.Subset.trans ?_ (ih _)
    split
    · exact Finset.subset_union_left
    · exact Finset.Subset.refl c

theorem closurePass_spec {fds : List FD} {fd : FD} (c : Finset String)
    (hmem : fd ∈ fds) (hdet : fd.1 ⊆ c) : fd.2 ⊆ closurePass fds c := by
  induction fds generalizing c with
  | nil => cases hmem
  | cons g t ih =>
    show fd.2 ⊆ List.foldl _ (if g.1 ⊆ c then c ∪ g.2 else c) t
    rcases List.mem_cons.mp hmem with rfl | hmem'
    · rw [if_pos hdet]
      exact Finset.Subset.trans Finset.subset_union_right (subset_closurePass t _)
    · refine ih _ hmem' (Finset.Subset.trans hdet ?_)
      split
      · exact Finset.subset_union_left
      · exact Finset.Subset.refl c

theorem fd_deps_subset_depsUnion {fds : List FD} {fd : FD} (hmem : fd ∈ fds) :
    fd.2 ⊆ depsUnion fds := by
  induction fds with
  | nil => cases hmem
  | cons g t ih =>
    rcases List.mem_cons.mp hmem with rfl | hmem'
    · exact Finset.subset_union_left
    · exact Finset.Subset.trans (ih hmem') Finset.subset_union_right

theorem closurePass_subset_union (fds : List FD) (c : Finset String) :
    closurePass fds c ⊆ c ∪ depsUnion fds := by
  have main : ∀ (l : List FD), (∀ fd ∈ l, fd ∈ fds) → ∀ (c' : Finset String),
      c' ⊆ c ∪ depsUnion fds →
      List.foldl (fun acc fd => if fd.1 ⊆ acc then acc ∪ fd.2 else acc) c' l ⊆
        c ∪ depsUnion fds := by
    intro l
    induction l with
    | nil => intro _ c' hc'; exact hc'
    | cons g t ih =>
      intro hl c' hc'
      refine ih (fun fd hfd => hl fd (List.mem_cons_of_mem g hfd)) _ ?_
      dsimp only
      split
      · exact Finset.union_subset hc' (Finset.Subset.trans
          (fd_deps_subset_depsUnion (hl g (List.mem_cons_self g t))) Finset.subset_union_right)
      · exact hc'
  exact main fds (fun _ h => h) c Finset.subset_union_left

theorem subset_closureAux (fds : List FD) (n : Nat) (c : Finset String) :
    c ⊆ closureAux fds n c := by
  induction n generalizing c with
  | zero => exact Finset.Subset.refl c
  | succ m ih =>
    show c ⊆ (if closurePass fds c = c then c else closureAux fds m (closurePass fds c))
    split
    · exact Finset.Subset.refl c
    · exact Finset.Subset.trans (subset_closurePass fds c) (ih _)

theorem closureAux_fixpoint (fds : List FD) : ∀ (n : Nat) (c : Finset String),
    (depsUnion fds \ c).card < n →
    closurePass fds (closureAux fds n c) = closureAux fds n c := by
  intro n
  induction n with
  | zero => intro c h; cases h
  | succ m ih =>
    intro c hcard
    rw [closureAux]
    split
    · next heq => exact heq
    · next hne =>
      refine ih (closurePass fds c) ?_
      have hsub : c ⊆ closurePass fds c := subset_closurePass fds c
      have hx : ∃ x, x ∈ closurePass fds c ∧ x ∉ c := by
        by_contra hno
        push_neg at hno
        exact hne (Finset.Subset.antisymm (fun x hx => hno x hx) hsub)
      obtain ⟨x, hx1, hx2⟩ := hx
      have hxD : x ∈ depsUnion fds := by
        rcases Finset.mem_union.mp (closurePass_subset_union fds c hx1) with h | h
        · exact absurd h hx2
        · exact h
      have hss : depsUnion fds \ closurePass fds c ⊂ depsUnion fds \ c := by
        constructor
        · intro y hy
          rcases Finset.mem_sdiff.mp hy with ⟨hy1, hy2⟩
          exact Finset.mem_sdiff.mpr ⟨hy1, fun hc => hy2 (hsub hc)⟩
        · intro hcon
          have : x ∈ depsUnion fds \ closurePass fds c := hcon (Finset.mem_sdiff.mpr ⟨hxD, hx2⟩)
          exact (Finset.mem_sdiff.mp this).2 hx1
      have := Finset.card_lt_card hss
      omega

theorem calculate_closure_fixpoint (X : Finset String) (fds : List FD) (U : Finset String) :
    closurePass fds (calculate_closure X fds U) = calculate_closure X fds U := by
  refine closureAux_fixpoint fds _ X ?_
  have := Finset.card_le_card (Finset.sdiff_subset (s := depsUnion fds) (t := X))
  omega

theorem subset_calculate_closure (X : Finset String) (fds : List FD) (U : Finset String) :
    X ⊆ calculate_closure X fds U :=
  subset_closureAux fds _ X

theorem calculate_closure_closed {fds : List FD} {fd : FD} (hmem : fd ∈ fds)
    (X U : Finset String) (hdet : fd.1 ⊆ calculate_closure X fds U) :
    fd.2 ⊆ calculate_closure X fds U := by
  have := closurePass_spec (calculate_closure X fds U) hmem hdet
  rwa [calculate_closure_fixpoint] at this

/-- Derivability of a single attribute from the set `X` under the FDs: the
specification of what the iterative `calculate_closure` loop computes. -/
inductive Derives (fds : List FD) (X : Finset String) : String → Prop
  | base {a : String} : a ∈ X → Derives fds X a
  | step {fd : FD} {a : String} : fd ∈ fds → (∀ b ∈ fd.1, Derives fds X b) →
      a ∈ fd.2 → Derives fds X a

theorem closure_sound (X : Finset String) (fds : List FD) (U : Finset String) :
    ∀ a ∈ calculate_closure X fds U, Derives fds X a := by
  have passmain : ∀ (l : List FD), (∀ fd ∈ l, fd ∈ fds) → ∀ (c : Finset String),
      (∀ a ∈ c, Derives fds X a) →
      ∀ a ∈ List.foldl (fun acc fd => if fd.1 ⊆ acc then acc ∪ fd.2 else acc) c l,
        Derives fds X a := by
    intro l
    induction l with
    | nil => intro _ c hc; exact hc
    | cons g t ih =>
      intro hl c hc
      refine ih (fun fd hfd => hl fd (List.mem_cons_of_mem g hfd)) _ ?_
      intro a ha
      dsimp only at ha
      split at ha
      · next hg =>
        rcases Finset.mem_union.mp ha with h | h
        · exact hc a h
        · exact Derives.step (hl g (List.mem_cons_self g t)) (fun b hb => hc b (hg hb)) h
      · exact hc a ha
  have auxmain : ∀ (n : Nat) (c : Finset String), (∀ a ∈ c, Derives fds X a) →
      ∀ a ∈ closureAux fds n c, Derives fds X a := by
    intro n
    induction n with
    | zero => intro c hc; exact hc
    | succ m ih =>
      intro c hc a ha
      rw [closureAux] at ha
      split at ha
      · exact hc a ha
      · exact ih _ (passmain fds (fun _ h => h) c hc) a ha
  exact auxmain _ X (fun a ha => Derives.base ha)

theorem closure_complete {X : Finset String} {fds : List FD} (U : Finset String)
    {a : String} (h : Derives fds X a) : a ∈ calculate_closure X fds U := by
  induction h with
  | base hmem => exact subset_calculate_closure X fds U hmem
  | step hfd _ hdep ih =>
    exact calculate_closure_closed hfd X U (fun b hb => ih b hb) hdep

theorem mem_calculate_closure {X : Finset String} {fds : List FD} {U : Finset String}
    {a : String} : a ∈ calculate_closure X fds U ↔ Derives fds X a :=
  ⟨fun h => closure_sound X fds U a h, fun h => closure_complete U h⟩

theorem Derives.mono {fds : List FD} {X Y : Finset String} {a : String}
    (h : Derives fds X a) (hXY : X ⊆ Y) : Derives fds Y a := by
  induction h with
  | base hmem => exact Derives.base (hXY hmem)
  | step hfd _ hdep ih => exact Derives.step hfd (fun b hb => ih b hb) hdep

theorem Derives.collapse {fds : List FD} {X : Finset String} {U : Finset String} {a : String}
    (h : Derives fds (calculate_closure X fds U) a) : Derives fds X a := by
  induction h with
  | base hmem => exact mem_calculate_closure.mp hmem
  | step hfd _ hdep ih => exact Derives.step hfd (fun b hb => ih b hb) hdep

/-- C6: `calculate_closure` is extensive, idempotent and monotone: for every
FD set `F` whose attributes lie in `U` and every `X, Y ⊆ U`,
`X ⊆ Closure(X,F,U)`, `Closure(Closure(X,F,U),F,U) = Closure(X,F,U)`, and
`X ⊆ Y → Closure(X,F,U) ⊆ Closure(Y,F,U)`. -/
theorem calculate_closure_props (U : Finset String) (F : List FD) (X Y : Finset String)
    (hF : ∀ fd ∈ F, fd.1 ⊆ U ∧ fd.2 ⊆ U) (hX : X ⊆ U) (hY : Y ⊆ U) :
    X ⊆ calculate_closure X F U ∧
    calculate_closure (calculate_closure X F U) F U = calculate_closure X F U ∧
    (X ⊆ Y → calculate_closure X F U ⊆ calculate_closure Y F U) := by
  refine ⟨subset_calculate_closure X F U, ?_, ?_⟩
  · apply Finset.Subset.antisymm
    · intro a ha
      exact closure_complete U (Derives.collapse (mem_calculate_closure.mp ha))
    · exact subset_calculate_closure _ F U
  · intro hXY a ha
    exact closure_complete U ((mem_calculate_closure.mp ha).mono hXY)

/-- Witness for C6 at the concrete input `U = {A,B}`, `F = [A → B]`,
`X = {A}`, `Y = {A,B}`. -/
theorem calculate_closure_props_witness :
    ({"A"} : Finset String) ⊆ calculate_closure {"A"} [({"A"}, {"B"})] {"A", "B"} ∧
    calculate_closure (calculate_closure {"A"} [({"A"}, {"B"})] {"A", "B"})
        [({"A"}, {"B"})] {"A", "B"} = calculate_closure {"A"} [({"A"}, {"B"})] {"A", "B"} ∧
    (({"A"} : Finset String) ⊆ {"A", "B"} →
      calculate_closure {"A"} [({"A"}, {"B"})] {"A", "B"} ⊆
        calculate_closure {"A", "B"} [({"A"}, {"B"})] {"A", "B"}) :=
  calculate_closure_props {"A", "B"} [({"A"}, {"B"})] {"A"} {"A", "B"}
    (by decide) (by decide) (by decide)

/-- Lexicographic comparison of string lists, as Python compares the sorted
attribute tuples in `find_candidate_keys`'s final `sorted(...)` call. -/
def lexLeStrList : List String → List String → Bool
  | [], _ => true
  | _ :: _, [] => false
  | a :: as, b :: bs => if a = b then lexLeStrList as bs else lexLeChars a.data b.data

/-- Ordering of candidate keys used by `sorted([tuple(sorted(ck)) ...])`. -/
def ckOrder (a b : Finset String) : Prop :=
  lexLeStrList (sortedList a) (sortedList b) = true

instance : DecidableRel ckOrder := fun _ _ => inferInstanceAs (Decidable (_ = true))

/-- Being a superkey in the sense of `find_candidate_keys`: the closure of the
set equals the full attribute set. -/
def SKey (allA : Finset String) (fds : List FD) (X : Finset String) : Prop :=
  calculate_closure X fds allA = allA

instance (allA : Finset String) (fds : List FD) (X : Finset String) :
    Decidable (SKey allA fds X) := inferInstanceAs (Decidable (_ = _))

/-- One iteration of the inner loop of `find_candidate_keys`
(`normalization_utils.py` lines 91-108): test one combination `key`; if it is
a superkey and no recorded candidate key is contained in it, drop recorded
keys that contain it and append it. -/
def processKey (allA : Finset String) (fds : List FD) (cks : List (Finset String))
    (key : Finset String) : List (Finset String) :=
  if SKey allA fds key then
    if ∃ ck ∈ cks, ck ⊆ key then cks
    else cks.filter (fun ck => decide (¬ key ⊆ ck)) ++ [key]
  else cks

/-- `find_candidate_keys` (`normalization_utils.py` lines 80-116): scan the
combinations of the attribute list by increasing size `k = 1 .. n`, folding
`processKey` over each level, and finally sort the recorded keys.  (The
source's `found_superkey_at_this_level` flag is dead code — its only use is a
`pass` — and is omitted.) -/
def ckScanLevels (attributes : List String) (fds : List FD) (m : Nat) : List (Finset String) :=
  (List.range m).foldl
    (fun cks k =>
      ((attributes.sublistsLen (k + 1)).map List.toFinset).foldl
        (processKey attributes.toFinset fds) cks)
    []

def find_candidate_keys (attributes : List String) (fds : List FD) : List (Finset String) :=
  (ckScanLevels attributes fds attributes.length).insertionSort ckOrder

theorem mem_processKey {allA : Finset String} {fds : List FD}
    {cks : List (Finset String)} {key ck : Finset String}
    (h : ck ∈ processKey allA fds cks key) : ck ∈ cks ∨ ck = key := by
  unfold processKey at h
  split at h
  · split at h
    · exact Or.inl h
    · rcases List.mem_append.mp h with h' | h'
      · exact Or.inl (List.mem_filter.mp h').1
      · exact Or.inr (List.mem_singleton.mp h')
  · exact Or.inl h

theorem processKey_cov {allA : Finset String} {fds : List FD}
    {cks : List (Finset String)} {key X : Finset String}
    (h : ∃ ck ∈ cks, ck ⊆ X) : ∃ ck ∈ processKey allA fds cks key, ck ⊆ X := by
  unfold processKey
  split
  · split
    · exact h
    · obtain ⟨ck, hck, hsub⟩ := h
      by_cases hk : key ⊆ ck
      · exact ⟨key, List.mem_append.mpr (Or.inr (List.mem_singleton_self key)),
          Finset.Subset.trans hk hsub⟩
      · exact ⟨ck, List.mem_append.mpr (Or.inl (List.mem_filter.mpr
          ⟨hck, decide_eq_true hk⟩)), hsub⟩
  · exact h

theorem processKey_self {allA : Finset String} {fds : List FD}
    {cks : List (Finset String)} {key : Finset String}
    (hsk : SKey allA fds key) : ∃ ck ∈ processKey allA fds cks key, ck ⊆ key := by
  unfold processKey
  rw [if_pos hsk]
  split
  · next hex => exact hex
  · exact ⟨key, List.mem_append.mpr (Or.inr (List.mem_singleton_self key)),
      Finset.Subset.refl key⟩

/-- The invariant maintained by `find_candidate_keys` over the recorded list
after all combinations of size up to `k` have been scanned. -/
def CKInv (allA : Finset String) (fds : List FD) (k : Nat)
    (cks : List (Finset String)) : Prop :=
  (∀ ck ∈ cks, SKey allA fds ck) ∧
  (∀ ck ∈ cks, ∀ t, t ⊂ ck → ¬ SKey allA fds t) ∧
  (∀ a ∈ cks, ∀ b ∈ cks, ¬ a ⊂ b) ∧
  (∀ X, X ⊆ allA → X.card ≤ k → SKey allA fds X → ∃ ck ∈ cks, ck ⊆ X)

theorem processKey_inv {allA : Finset String} {fds : List FD} {k : Nat}
    {cks : List (Finset String)} {key : Finset String}
    (hinv : CKInv allA fds k cks) (hcard : key.card ≤ k + 1) :
    CKInv allA fds k (processKey allA fds cks key) := by
  obtain ⟨hA, hMin, hAnti, hCov⟩ := hinv
  by_cases hsk : SKey allA fds key
  · by_cases hex : ∃ ck ∈ cks, ck ⊆ key
    · unfold processKey
      rw [if_pos hsk, if_pos hex]
      exact ⟨hA, hMin, hAnti, hCov⟩
    · unfold processKey
      rw [if_pos hsk, if_neg hex]
      have hmem : ∀ ck, ck ∈ cks.filter (fun ck => decide (¬ key ⊆ ck)) ++ [key] ↔
          (ck ∈ cks ∧ ¬ key ⊆ ck) ∨ ck = key := by
        intro ck
        rw [List.mem_append, List.mem_filter, List.mem_singleton]
        simp only [decide_eq_true_eq]
      refine ⟨?_, ?_, ?_, ?_⟩
      · intro ck hck
        rcases (hmem ck).mp hck with ⟨h1, _⟩ | rfl
        · exact hA ck h1
        · exact hsk
      · intro ck hck t ht hskt
        rcases (hmem ck).mp hck with ⟨h1, _⟩ | rfl
        · exact hMin ck h1 t ht hskt
        · have htsub : t ⊆ allA := by
            have : ck ⊆ allA := by
              intro a ha
              have := subset_calculate_closure ck fds allA ha
              rw [hsk] at this
              exact this
            exact Finset.Subset.trans ht.subset this
          have htcard : t.card ≤ k := by
            have := Finset.card_lt_card ht
            omega
          obtain ⟨ck', hck', hck's⟩ := hCov t htsub htcard hskt
          exact hex ⟨ck', hck', Finset.Subset.trans hck's ht.subset⟩
      · intro a ha b hb
        rcases (hmem a).mp ha with ⟨ha1, ha2⟩ | rfl
        · rcases (hmem b).mp hb with ⟨hb1, _⟩ | rfl
          · exact hAnti a ha1 b hb1
          · exact fun hab => hex ⟨a, ha1, hab.subset⟩
        · rcases (hmem b).mp hb with ⟨_, hb2⟩ | rfl
          · exact fun hab => hb2 hab.subset
          · exact fun hab => absurd rfl hab.ne
      · intro X hXsub hXcard hXsk
        obtain ⟨ck, hck, hsub⟩ := hCov X hXsub hXcard hXsk
        by_cases hk : key ⊆ ck
        · exact ⟨key, (hmem key).mpr (Or.inr rfl), Finset.Subset.trans hk hsub⟩
        · exact ⟨ck, (hmem ck).mpr (Or.inl ⟨hck, hk⟩), hsub⟩
  · unfold processKey
    rw [if_neg hsk]
    exact ⟨hA, hMin, hAnti, hCov⟩

theorem foldl_processKey_inv {allA : Finset String} {fds : List FD} {k : Nat}
    {tuples : List (Finset String)} {cks : List (Finset String)}
    (hinv : CKInv allA fds k cks) (htup : ∀ t ∈ tuples, t.card ≤ k + 1) :
    CKInv allA fds k (tuples.foldl (processKey allA fds) cks) := by
  induction tuples generalizing cks with
  | nil => exact hinv
  | cons t ts ih =>
    exact ih (processKey_inv hinv (htup t (List.mem_cons_self t ts)))
      (fun u hu => htup u (List.mem_cons_of_mem t hu))

theorem foldl_processKey_cov {allA : Finset String} {fds : List FD}
    {tuples : List (Finset String)} {cks : List (Finset String)} {X : Finset String}
    (h : ∃ ck ∈ cks, ck ⊆ X) :
    ∃ ck ∈ tuples.foldl (processKey allA fds) cks, ck ⊆ X := by
  induction tuples generalizing cks with
  | nil => exact h
  | cons t ts ih => exact ih (processKey_cov h)

theorem foldl_processKey_self {allA : Finset String} {fds : List FD}
    {tuples : List (Finset String)} {cks : List (Finset String)} {X : Finset String}
    (hX : X ∈ tuples) (hsk : SKey allA fds X) :
    ∃ ck ∈ tuples.foldl (processKey allA fds) cks, ck ⊆ X := by
  obtain ⟨s, t, rfl⟩ := List.append_of_mem hX
  rw [List.foldl_append, List.foldl_cons]
  exact foldl_processKey_cov (processKey_self hsk)

theorem closure_empty_of_nonempty_dets {fds : List FD} (U : Finset String)
    (hdet : ∀ fd ∈ fds, fd.1.Nonempty) :
    calculate_closure ∅ fds U = ∅ := by
  ext a
  simp only [Finset.not_mem_empty, iff_false]
  intro ha
  have hder := mem_calculate_closure.mp ha
  clear ha
  induction hder with
  | base h => exact absurd h (Finset.not_mem_empty _)
  | step hfd _ _ ih =>
    obtain ⟨b, hb⟩ := hdet _ hfd
    exact ih b hb

theorem exists_nodup_sublist {X : Finset String} : ∀ {l : List String}, X ⊆ l.toFinset →
    ∃ s : List String, s.Sublist l ∧ s.toFinset = X ∧ s.length = X.card := by
  intro l
  induction l generalizing X with
  | nil =>
    intro h
    simp only [List.toFinset_nil] at h
    have : X = ∅ := Finset.subset_empty.mp h
    subst this
    exact ⟨[], List.Sublist.refl [], rfl, rfl⟩
  | cons a t ih =>
    intro h
    by_cases ha : a ∈ X
    · have hsub : X.erase a ⊆ t.toFinset := by
        intro x hx
        rcases Finset.mem_erase.mp hx with ⟨hxa, hxX⟩
        have := h hxX
        rw [List.toFinset_cons, Finset.mem_insert] at this
        rcases this with rfl | h'
        · exact absurd rfl hxa
        · exact h'
      obtain ⟨s, hs1, hs2, hs3⟩ := ih hsub
      refine ⟨a :: s, List.Sublist.cons₂ a hs1, ?_, ?_⟩
      · rw [List.toFinset_cons, hs2, Finset.insert_erase ha]
      · rw [List.length_cons, hs3, Finset.card_erase_add_one ha]
    · have hsub : X ⊆ t.toFinset := by
        intro x hx
        have := h hx
        rw [List.toFinset_cons, Finset.mem_insert] at this
        rcases this with rfl | h'
        · exact absurd hx ha
        · exact h'
      obtain ⟨s, hs1, hs2, hs3⟩ := ih hsub
      exact ⟨s, List.Sublist.cons a hs1, hs2, hs3⟩

theorem levels_inv (attributes : List String) (fds : List FD)
    (hne : attributes.toFinset.Nonempty) (hdet : ∀ fd ∈ fds, fd.1.Nonempty) :
    ∀ m : Nat, CKInv attributes.toFinset fds m (ckScanLevels attributes fds m) := by
  intro m
  induction m with
  | zero =>
    refine ⟨by simp [ckScanLevels], by simp [ckScanLevels], by simp [ckScanLevels], ?_⟩
    intro X _ hXcard hXsk
    have hX : X = ∅ := Finset.card_eq_zero.mp (Nat.le_zero.mp hXcard)
    subst hX
    rw [SKey, closure_empty_of_nonempty_dets _ hdet] at hXsk
    exact absurd hXsk.symm (Finset.nonempty_iff_ne_empty.mp hne)
  | succ m ih =>
    rw [ckScanLevels, List.range_succ, List.foldl_append]
    rw [show (List.range m).foldl
      (fun cks k =>
        ((attributes.sublistsLen (k + 1)).map List.toFinset).foldl
          (processKey attributes.toFinset fds) cks)
      [] = ckScanLevels attributes fds m from rfl]
    simp only [List.foldl_cons, List.foldl_nil]
    have htup : ∀ t ∈ (attributes.sublistsLen (m + 1)).map List.toFinset, t.card ≤ m + 1 := by
      intro t ht
      obtain ⟨s, hs, rfl⟩ := List.mem_map.mp ht
      obtain ⟨_, hlen⟩ := List.mem_sublistsLen.mp hs
      calc s.toFinset.card ≤ s.length := List.toFinset_card_le s
        _ = m + 1 := hlen
    have hnext := foldl_processKey_inv ih htup
    obtain ⟨hA, hMin, hAnti, hCov⟩ := hnext
    refine ⟨hA, hMin, hAnti, ?_⟩
    intro X hXsub hXcard hXsk
    rcases Nat.lt_or_ge X.card (m + 1) with hlt | hge
    · exact hCov X hXsub (by omega) hXsk
    · have hXc : X.card = m + 1 := by omega
      obtain ⟨s, hs1, hs2, hs3⟩ := exists_nodup_sublist hXsub
      have hmem : X ∈ (attributes.sublistsLen (m + 1)).map List.toFinset := by
        refine List.mem_map.mpr ⟨s, ?_, hs2⟩
        exact List.mem_sublistsLen.mpr ⟨hs1, by rw [hs3, hXc]⟩
      exact foldl_processKey_self hmem hXsk

/-- C5 counterexample: the claim as stated quantifies over every attribute
list, but on the empty attribute list `U = []` (with no FDs) the empty set is
a superkey — `Closure(∅, [], ∅) = ∅ = U` — while `find_candidate_keys [] []`
returns the empty list, so no returned candidate key is contained in that
superkey. -/
theorem find_candidate_keys_empty_universe :
    find_candidate_keys [] [] = [] ∧
    calculate_closure ∅ [] (([] : List String).toFinset) = ([] : List String).toFinset ∧
    ¬ ∃ ck ∈ find_candidate_keys [] [], ck ⊆ (∅ : Finset String) := by
  refine ⟨rfl, rfl, ?_⟩
  rintro ⟨ck, hck, -⟩
  simp [find_candidate_keys, ckScanLevels] at hck

/-- C5 (amended: for every NON-EMPTY attribute list `U` and FD set `F` whose
attributes all lie in `U`, with the non-empty determinants required of FDs by
the data model): `find_candidate_keys(U, F)` returns an antichain of
superkeys — every returned key has closure equal to `U`, no returned key is a
strict subset of another, no strict subset of a returned key is a superkey,
and every superkey `X ⊆ U` contains at least one returned candidate key. -/
theorem find_candidate_keys_spec (attributes : List String) (fds : List FD)
    (hne : attributes ≠ [])
    (hdet : ∀ fd ∈ fds, fd.1.Nonempty)
    (hattrs : ∀ fd ∈ fds, fd.1 ⊆ attributes.toFinset ∧ fd.2 ⊆ attributes.toFinset) :
    (∀ ck ∈ find_candidate_keys attributes fds,
        calculate_closure ck fds attributes.toFinset = attributes.toFinset) ∧
    (∀ c₁ ∈ find_candidate_keys attributes fds, ∀ c₂ ∈ find_candidate_keys attributes fds,
        ¬ c₁ ⊂ c₂) ∧
    (∀ ck ∈ find_candidate_keys attributes fds, ∀ t, t ⊂ ck →
        calculate_closure t fds attributes.toFinset ≠ attributes.toFinset) ∧
    (∀ X ⊆ attributes.toFinset,
        calculate_closure X fds attributes.toFinset = attributes.toFinset →
        ∃ ck ∈ find_candidate_keys attributes fds, ck ⊆ X) := by
  have hneF : attributes.toFinset.Nonempty := by
    obtain ⟨a, ha⟩ := List.exists_mem_of_ne_nil attributes hne
    exact ⟨a, List.mem_toFinset.mpr ha⟩
  obtain ⟨hA, hMin, hAnti, hCov⟩ := levels_inv attributes fds hneF hdet attributes.length
  have hmem : ∀ ck, ck ∈ find_candidate_keys attributes fds ↔
      ck ∈ ckScanLevels attributes fds attributes.length := fun ck =>
    (List.perm_insertionSort ckOrder _).mem_iff
  refine ⟨?_, ?_, ?_, ?_⟩
  · intro ck hck
    exact hA ck ((hmem ck).mp hck)
  · intro c₁ h₁ c₂ h₂
    exact hAnti c₁ ((hmem c₁).mp h₁) c₂ ((hmem c₂).mp h₂)
  · intro ck hck t ht
    exact hMin ck ((hmem ck).mp hck) t ht
  · intro X hX hsk
    have hcard : X.card ≤ attributes.length :=
      le_trans (Finset.card_le_card hX) (List.toFinset_card_le attributes)
    obtain ⟨ck, hck, hsub⟩ := hCov X hX hcard hsk
    exact ⟨ck, (hmem ck).mpr hck, hsub⟩

/-- Witness for the amended C5 at the spec's concrete scenario
`U = [A,B,C]`, `F = {AB → C, C → B}` (candidate keys `{A,B}` and `{A,C}`). -/
theorem find_candidate_keys_spec_witness :
    (∀ ck ∈ find_candidate_keys ["A", "B", "C"] [({"A", "B"}, {"C"}), ({"C"}, {"B"})],
        calculate_closure ck [({"A", "B"}, {"C"}), ({"C"}, {"B"})]
          (["A", "B", "C"] : List String).toFinset = (["A", "B", "C"] : List String).toFinset) ∧
    (∀ c₁ ∈ find_candidate_keys ["A", "B", "C"] [({"A", "B"}, {"C"}), ({"C"}, {"B"})],
        ∀ c₂ ∈ find_candidate_keys ["A", "B", "C"] [({"A", "B"}, {"C"}), ({"C"}, {"B"})],
        ¬ c₁ ⊂ c₂) ∧
    (∀ ck ∈ find_candidate_keys ["A", "B", "C"] [({"A", "B"}, {"C"}), ({"C"}, {"B"})],
        ∀ t, t ⊂ ck →
        calculate_closure t [({"A", "B"}, {"C"}), ({"C"}, {"B"})]
          (["A", "B", "C"] : List String).toFinset ≠ (["A", "B", "C"] : List String).toFinset) ∧
    (∀ X ⊆ (["A", "B", "C"] : List String).toFinset,
        calculate_closure X [({"A", "B"}, {"C"}), ({"C"}, {"B"})]
          (["A", "B", "C"] : List String).toFinset = (["A", "B", "C"] : List String).toFinset →
        ∃ ck ∈ find_candidate_keys ["A", "B", "C"] [({"A", "B"}, {"C"}), ({"C"}, {"B"})],
          ck ⊆ X) :=
  find_candidate_keys_spec ["A", "B", "C"] [({"A", "B"}, {"C"}), ({"C"}, {"B"})]
    (by decide) (by decide) (by decide)

/-- All attributes mentioned by an FD collection:
`set(chain(keys)) | set(chain(values))` in `get_minimal_cover`
(`normalization_utils.py` line 128). -/
def fdAttrs : List FD → Finset String
  | [] => ∅
  | fd :: t => fd.1 ∪ fd.2 ∪ fdAttrs t

/-- Insertion into the `{frozenset: set}` dict: if the determinant is already
a key, union the dependent into its entry, otherwise append a new entry
(Python dict insertion order). -/
def insertDep : List FD → Finset String → String → List FD
  | [], det, dep => [(det, {dep})]
  | fd :: t, det, dep =>
    if fd.1 = det then (fd.1, insert dep fd.2) :: t else fd :: insertDep t det dep

/-- Rebuild a `{frozenset: set}` dict from a list of singleton-RHS pairs,
as done at the end of Step 1 and in Step 3 of `get_minimal_cover`. -/
def mergePairs (l : List (Finset String × String)) : List FD :=
  l.foldl (fun acc p => insertDep acc p.1 p.2) []

/-- The `temp_cover_dict` of Step 3 of `get_minimal_cover`
(`normalization_utils.py` lines 185-193): the dict with the single pair
`det → dep` removed, dropping the determinant entry if it becomes empty. -/
def removePair (l : List FD) (det : Finset String) (dep : String) : List FD :=
  l.filterMap (fun fd =>
    if fd.1 = det then
      let d2 := fd.2.erase dep
      if d2 = ∅ then none else some (fd.1, d2)
    else some fd)

/-- Step 2 of `get_minimal_cover` (`normalization_utils.py` lines 151-169):
try removing each determinant attribute in turn (never below one attribute),
keeping the reduction when the dependent stays derivable from the ORIGINAL
standard FD dict.  (Python iterates the frozenset in unspecified order; we
iterate lexicographically.) -/
def minimizeLHS (det : Finset String) (dep : String) (sdict : List FD)
    (allA : Finset String) : Finset String :=
  (sortedList det).foldl (fun cur attr =>
    if 1 < cur.card then
      let temp := cur.erase attr
      if dep ∈ calculate_closure temp sdict allA then temp else cur
    else cur) det

/-- `get_minimal_cover` (`normalization_utils.py` lines 120-213).
Step 3 tests each FD for redundancy against the FULL post-minimization dict
minus that single FD (`current_fds_dict` is never updated inside the loop),
not against the incrementally shrunk cover. -/
def get_minimal_cover (fds_dict : List FD) : List FD :=
  let all_attributes := fdAttrs fds_dict
  if all_attributes = ∅ then []
  else
    let standard_fds_list : List (Finset String × String) :=
      fds_dict.flatMap (fun fd =>
        (sortedList fd.2).filterMap (fun dep =>
          if dep ∈ fd.1 then none else some (fd.1, dep)))
    let standard_fds_dict_temp := mergePairs standard_fds_list
    let minimized_lhs_list := standard_fds_list.map (fun p =>
      (minimizeLHS p.1 p.2 standard_fds_dict_temp all_attributes, p.2))
    let current_fds_dict := mergePairs minimized_lhs_list
    let final_min_cover_list := minimized_lhs_list.filter (fun p =>
      decide (p.2 ∉ calculate_closure p.1 (removePair current_fds_dict p.1 p.2) all_attributes))
    mergePairs final_min_cover_list

/-- C1 (code bug): on `F = {A → {B,C}, B → {A,C}}` the redundancy step drops
BOTH `A → C` and `B → C` (each is derivable from the full remaining set, but
not from the set after the other one is also dropped), returning the cover
`{A → B, B → A}`.  `C` then fails to be in `Closure({A}, cover, U)` although
`A → C ∈ F`, so the computed cover is NOT logically equivalent to `F`. -/
theorem get_minimal_cover_loses_fd :
    get_minimal_cover [({"A"}, {"B", "C"}), ({"B"}, {"A", "C"})] =
      [({"A"}, {"B"}), ({"B"}, {"A"})] ∧
    ("C" ∈ (({"B", "C"}) : Finset String)) ∧
    "C" ∉ calculate_closure {"A"}
      (get_minimal_cover [({"A"}, {"B", "C"}), ({"B"}, {"A", "C"})])
      (fdAttrs [({"A"}, {"B", "C"}), ({"B"}, {"A", "C"})]) := by decide

/-- `check_fd_preservation` (`normalization_utils.py` lines 216-234): an FD is
lost when no decomposed schema contains all its attributes.  (The source
renders lost FDs as display strings; they are kept as pairs here.) -/
def check_fd_preservation (original_fds : List FD)
    (decomposed_schemas : List (Finset String)) : List FD :=
  original_fds.filter (fun fd =>
    decide (¬ ∃ s ∈ decomposed_schemas, fd.1 ∪ fd.2 ⊆ s))

/-- Step 4 of `decompose_3nf` (`normalization_routes.py` lines 234-247):
drop schemas strictly contained in another schema and deduplicate. -/
def minimize3nfSchemas (schemas : List (Finset String)) : List (Finset String) :=
  schemas.foldl (fun minimal s1 =>
    if ∃ s2 ∈ schemas, s1 ≠ s2 ∧ s1 ⊆ s2 then minimal
    else if s1 ∈ minimal then minimal else minimal ++ [s1]) []

/-- Result of a decomposition endpoint: the `(attributes, primary_key)` pairs
of the emitted sub-schemas (their generated names are omitted) and the
reported lost FDs. -/
structure DecompResult where
  tables : List (Finset String × Finset String)
  lost_fds : List FD
deriving DecidableEq

/-- `decompose_3nf` core (`normalization_routes.py` lines 199-280): build one
sub-schema per minimal-cover entry, append the first candidate key when no
sub-schema contains a candidate key, minimize, pick each primary key as the
first minimal-cover determinant contained in the schema (else the first
contained candidate key, else `∅`), and report `lost_fds = []` literally. -/
def decompose_3nf (attributes_list : List String) (candidate_keys : List (Finset String))
    (processed_fds : List FD) : DecompResult :=
  let min_cover := get_minimal_cover processed_fds
  let schemas0 := min_cover.map (fun fd => fd.1 ∪ fd.2)
  let ck_found := ∃ s ∈ schemas0, ∃ ck ∈ candidate_keys, ck ⊆ s
  let schemas1 :=
    match candidate_keys with
    | [] => schemas0
    | ck0 :: _ =>
      if ck_found then schemas0
      else if ∃ s ∈ schemas0, ck0 ⊆ s then schemas0 else schemas0 ++ [ck0]
  let schemas := minimize3nfSchemas schemas1
  let pkFor := fun (s : Finset String) =>
    match min_cover.find? (fun fd => decide (fd.1 ⊆ s)) with
    | some fd => fd.1
    | none =>
      match candidate_keys.find? (fun ck => decide (ck ⊆ s)) with
      | some ck => ck
      | none => (∅ : Finset String)
  { tables := schemas.map (fun s => (s, pkFor s)), lost_fds := [] }

/-- C2 (code bug): on the accepted input `attributes = [A,B,C]`,
`candidateKeys = [{A}]` (the actual candidate keys of this FD set include
`{A}`), `F = {A → {B,C}, B → {A,C}}`, the 3NF synthesis builds its
sub-schemas from the non-equivalent minimal cover `{A → B, B → A}` of C1 and
returns the single sub-schema `{A,B}` with `lost_fds = []`: the attribute `C`
appears in `F` but in no returned sub-schema, violating the claimed attribute
coverage. -/
theorem decompose_3nf_loses_attribute :
    (decompose_3nf ["A", "B", "C"] [{"A"}] [({"A"}, {"B", "C"}), ({"B"}, {"A", "C"})]).tables =
      [({"A", "B"}, {"A"})] ∧
    (decompose_3nf ["A", "B", "C"] [{"A"}] [({"A"}, {"B", "C"}), ({"B"}, {"A", "C"})]).lost_fds =
      [] ∧
    "C" ∈ fdAttrs [({"A"}, {"B", "C"}), ({"B"}, {"A", "C"})] ∧
    (∀ t ∈ (decompose_3nf ["A", "B", "C"] [{"A"}]
        [({"A"}, {"B", "C"}), ({"B"}, {"A", "C"})]).tables, "C" ∉ t.1) := by decide

/-- Projection of the FDs into a sub-schema by determinant containment and
dependent intersection — the identical `relevant_fds` / `projected_fds`
computations at `normalization_routes.py` lines 333-341 and 417-425: keep
`X → (Y ∩ S)` whenever `X ⊆ S` and `Y ∩ S` is non-empty and not contained in
`X`. -/
def projectInter (fds : List FD) (S : Finset String) : List FD :=
  fds.filterMap (fun fd =>
    if fd.1 ⊆ S then
      if fd.2 ∩ S ≠ ∅ ∧ ¬ fd.2 ∩ S ⊆ fd.1 then some (fd.1, fd.2 ∩ S) else none
    else none)

/-- The first BCNF-violating FD of a sub-schema: the first projected FD whose
determinant is not a superkey of the sub-schema under the projected FDs
(`normalization_routes.py` lines 345-351). -/
def findViolation (rel : List FD) (S : Finset String) : Option FD :=
  rel.find? (fun fd => decide (calculate_closure fd.1 rel S ≠ S))

/-- One violation step of the BCNF loop (`normalization_routes.py` lines
355-386): remove the violating schema `S`, append `s1` (resp. `s2`) to the
result list unless it is a strict subset of a remaining schema or already
present, mirror the appends into the work list, and prune work-list entries
strictly contained in some recorded schema. -/
def bcnfStep (decomposed work : List (Finset String)) (S s1 s2 : Finset String) :
    List (Finset String) × List (Finset String) :=
  let d0 := decomposed.erase S
  let d1 := if (¬ ∃ s ∈ d0, s1 ≠ s ∧ s1 ⊆ s) ∧ s1 ∉ d0 then d0 ++ [s1] else d0
  let w1 := if (¬ ∃ s ∈ d0, s1 ≠ s ∧ s1 ⊆ s) ∧ s1 ∉ d0 then
      (if s1 ∉ work then work ++ [s1] else work) else work
  let d2 := if (¬ ∃ s ∈ d0, s2 ≠ s ∧ s2 ⊆ s) ∧ s2 ∉ d1 then d1 ++ [s2] else d1
  let w2 := if (¬ ∃ s ∈ d0, s2 ≠ s ∧ s2 ⊆ s) ∧ s2 ∉ d1 then
      (if s2 ∉ w1 then w1 ++ [s2] else w1) else w1
  let w3 := w2.filter (fun w => decide (¬ ∃ d ∈ d2, w ≠ d ∧ w ⊆ d))
  (d2, w3)

/-- The main BCNF decomposition loop (`normalization_routes.py` lines
326-388), the source's `while work_list:` loop with explicit fuel.  On a
violating FD `X → Y` found in `S` the source splits into `schema1 = X ∪ Y`
and `schema2 = (S \ Y) ∪ X` — the direct split, not the closure-based one. -/
def bcnfLoop (fds : List FD) : Nat → List (Finset String) → List (Finset String) →
    List (Finset String)
  | 0, decomposed, _ => decomposed
  | fuel + 1, decomposed, work =>
    match work with
    | [] => decomposed
    | S :: rest =>
      match findViolation (projectInter fds S) S with
      | none => bcnfLoop fds fuel decomposed rest
      | some fd =>
        let p := bcnfStep decomposed rest S (fd.1 ∪ fd.2) ((S \ fd.2) ∪ fd.1)
        bcnfLoop fds fuel p.1 p.2

/-- Stable insertion by cardinality (Python's stable `list.sort(key=len)`,
`normalization_routes.py` line 394). -/
def insertByCard (x : Finset String) : List (Finset String) → List (Finset String)
  | [] => [x]
  | y :: t => if x.card < y.card then x :: y :: t else y :: insertByCard x t

def sortByCard (l : List (Finset String)) : List (Finset String) :=
  l.foldl (fun acc x => insertByCard x acc) []

/-- Post-loop minimization of the BCNF schemas (`normalization_routes.py`
lines 393-405): scan in increasing size, skip strict subsets of an already
kept schema, drop kept supersets, deduplicate. -/
def minimizeBcnfSchemas (schemas : List (Finset String)) : List (Finset String) :=
  (sortByCard schemas).foldl (fun minimal s1 =>
    if ∃ s2 ∈ minimal, s1 ≠ s2 ∧ s1 ⊆ s2 then minimal
    else (minimal.filter (fun s => decide (¬ s1 ⊆ s))) ++ [s1]) []

/-- Python's `min(iterable, key=len)` starting from a first element: the first
element of minimal cardinality. -/
def minByCard (c : Finset String) (rest : List (Finset String)) : Finset String :=
  rest.foldl (fun best x => if x.card < best.card then x else best) c

/-- The primary-key selection of `decompose_bcnf` (`normalization_routes.py`
lines 432-440): the smallest candidate key (Python `min(..., key=len)`), or
the whole schema when no candidate key was found. -/
def choosePK (cks : List (Finset String)) (s : Finset String) : Finset String :=
  match cks with
  | [] => s
  | c :: rest => minByCard c rest

/-- The final sub-schema assembly of `decompose_bcnf`
(`normalization_routes.py` lines 411-446): project the original FDs onto each
surviving schema by intersection, compute its candidate keys over that
projection, and choose the smallest candidate key as primary key (falling
back to the full schema when no candidate key is found). -/
def bcnfAssemble (fds : List FD) (schemas : List (Finset String)) :
    List (Finset String × Finset String) :=
  schemas.map (fun s =>
    (s, choosePK (find_candidate_keys (sortedList s) (projectInter fds s)) s))

/-- `decompose_bcnf` core (`normalization_routes.py` lines 289-453). -/
def decompose_bcnf (attributes_list : List String) (processed_fds : List FD)
    (fuel : Nat) : DecompResult :=
  let all_attributes := attributes_list.toFinset
  let schemas :=
    minimizeBcnfSchemas (bcnfLoop processed_fds fuel [all_attributes] [all_attributes])
  { tables := bcnfAssemble processed_fds schemas,
    lost_fds := check_fd_preservation processed_fds schemas }

/-- Modelled from the spec's words for C3 (the closure-variant split the spec
adopts): on a violation `X → Y` in `S`, replace `S` by `S₁ = X ∪ Y_full`
with `Y_full = Closure(X, F_S, S) \ X` and `S₂ = (S \ Y_full) ∪ X`. -/
def specBcnfSplit (fds : List FD) (S X : Finset String) : Finset String × Finset String :=
  let yfull := calculate_closure X (projectInter fds S) S \ X
  (X ∪ yfull, (S \ yfull) ∪ X)

/-- C3 counterexample: with `U = {A,B,C,D}` and `F = {A → B, B → C}`, the
violating FD found in `U` is `A → B`; the spec's closure-variant split of `U`
on it is `({A,B,C}, {A,D})`, but the loop's result is `[{A,B}, {A,C,D}]` —
the code splits on `Y` itself, so neither spec-predicted sub-schema is ever
produced. -/
theorem bcnf_split_not_closure_variant :
    findViolation (projectInter [({"A"}, {"B"}), ({"B"}, {"C"})] {"A", "B", "C", "D"})
      {"A", "B", "C", "D"} = some ({"A"}, {"B"}) ∧
    specBcnfSplit [({"A"}, {"B"}), ({"B"}, {"C"})] {"A", "B", "C", "D"} {"A"} =
      ({"A", "B", "C"}, {"A", "D"}) ∧
    bcnfLoop [({"A"}, {"B"}), ({"B"}, {"C"})] 9 [{"A", "B", "C", "D"}] [{"A", "B", "C", "D"}] =
      [{"A", "B"}, {"A", "C", "D"}] ∧
    ({"A", "B", "C"} : Finset String) ∉
      bcnfLoop [({"A"}, {"B"}), ({"B"}, {"C"})] 9 [{"A", "B", "C", "D"}] [{"A", "B", "C", "D"}] ∧
    ({"A", "D"} : Finset String) ∉
      bcnfLoop [({"A"}, {"B"}), ({"B"}, {"C"})] 9 [{"A", "B", "C", "D"}] [{"A", "B", "C", "D"}] := by
  decide

/-- C3 (amended: the code's direct split): whenever the violating FD `X → Y`
is found in the sub-schema `S` at the head of the work list, the loop
replaces `S` by exactly the two sub-schemas `S₁ = X ∪ Y` and
`S₂ = (S \ Y) ∪ X` (the projected dependents themselves, not the closure),
each added only if not already present nor a strict subset of a recorded
schema, before continuing. -/
theorem bcnfLoop_direct_split (fds : List FD) (fuel : Nat)
    (decomposed work : List (Finset String)) (S X Y : Finset String)
    (h : findViolation (projectInter fds S) S = some (X, Y)) :
    bcnfLoop fds (fuel + 1) decomposed (S :: work) =
      bcnfLoop fds fuel
        (bcnfStep decomposed work S (X ∪ Y) ((S \ Y) ∪ X)).1
        (bcnfStep decomposed work S (X ∪ Y) ((S \ Y) ∪ X)).2 := by
  simp only [bcnfLoop, h]

/-- Witness for the amended C3 applied at the C3 scenario's first step. -/
theorem bcnfLoop_direct_split_witness :
    bcnfLoop [({"A"}, {"B"}), ({"B"}, {"C"})] (8 + 1) [{"A", "B", "C", "D"}]
        ({"A", "B", "C", "D"} :: []) =
      bcnfLoop [({"A"}, {"B"}), ({"B"}, {"C"})] 8
        (bcnfStep [{"A", "B", "C", "D"}] [] {"A", "B", "C", "D"}
          ({"A"} ∪ {"B"}) (({"A", "B", "C", "D"} \ {"B"}) ∪ {"A"})).1
        (bcnfStep [{"A", "B", "C", "D"}] [] {"A", "B", "C", "D"}
          ({"A"} ∪ {"B"}) (({"A", "B", "C", "D"} \ {"B"}) ∪ {"A"})).2 :=
  bcnfLoop_direct_split [({"A"}, {"B"}), ({"B"}, {"C"})] 8 [{"A", "B", "C", "D"}] []
    {"A", "B", "C", "D"} {"A"} {"B"} (by decide)

/-- Modelled from the spec's words for C4: the closure-based projection
`X → (Closure(X, F, U) ∩ S) \ X` of the FDs onto a sub-schema `S`, dropping
resulting trivial FDs. -/
def specProjectFDs (fds : List FD) (U S : Finset String) : List FD :=
  fds.filterMap (fun fd =>
    if fd.1 ⊆ S then
      if (calculate_closure fd.1 fds U ∩ S) \ fd.1 ≠ ∅ then
        some (fd.1, (calculate_closure fd.1 fds U ∩ S) \ fd.1)
      else none
    else none)

/-- Modelled from the spec's words for C4: the primary key the spec mandates —
the smallest candidate key of `S` over the closure-based projection. -/
def specBcnfPK (fds : List FD) (U S : Finset String) : Finset String :=
  choosePK (find_candidate_keys (sortedList S) (specProjectFDs fds U S)) S

/-- C4 counterexample: with `U = [A,B,C,D]` and `F = {A → B, B → C}`, BCNF
decomposition yields sub-schemas `{A,B}` (PK `{A}`) and `{A,C,D}`, for which
the code's intersection-based projection is empty and the chosen PK is the
whole schema `{A,C,D}` — while the closure-based projection the claim
requires induces `A → C`, whose smallest candidate key is `{A,D}`. -/
theorem decompose_bcnf_pk_not_closure_based :
    (decompose_bcnf ["A", "B", "C", "D"] [({"A"}, {"B"}), ({"B"}, {"C"})] 9).tables =
      [({"A", "B"}, {"A"}), ({"A", "C", "D"}, {"A", "C", "D"})] ∧
    specBcnfPK [({"A"}, {"B"}), ({"B"}, {"C"})] (["A", "B", "C", "D"] : List String).toFinset
      {"A", "C", "D"} = {"A", "D"} ∧
    ({"A", "C", "D"} : Finset String) ≠ {"A", "D"} := by decide

/-- C4 (amended: the code's intersection-based projection): for each sub-schema
`S` surviving BCNF decomposition, the chosen primary key is the smallest
candidate key (first of minimal size in candidate-key order) of `S` computed
over the intersection-based projection `X → (Y ∩ S)` of the original FDs onto
`S`, the whole of `S` when that projection yields no candidate key. -/
theorem decompose_bcnf_pk_spec (attributes_list : List String) (fds : List FD)
    (fuel : Nat) (s pk : Finset String)
    (h : (s, pk) ∈ (decompose_bcnf attributes_list fds fuel).tables) :
    pk = choosePK (find_candidate_keys (sortedList s) (projectInter fds s)) s := by
  have h' : (s, pk) ∈ bcnfAssemble fds
      (minimizeBcnfSchemas (bcnfLoop fds fuel [attributes_list.toFinset]
        [attributes_list.toFinset])) := h
  obtain ⟨t, -, heq⟩ := List.mem_map.mp h'
  injection heq with h1 h2
  subst h1
  exact h2.symm

/-- Witness for the amended C4 at the C4 scenario's surviving sub-schema
`{A,C,D}`. -/
theorem decompose_bcnf_pk_spec_witness :
    ({"A", "C", "D"} : Finset String) =
      choosePK (find_candidate_keys (sortedList {"A", "C", "D"})
        (projectInter [({"A"}, {"B"}), ({"B"}, {"C"})] {"A", "C", "D"})) {"A", "C", "D"} :=
  decompose_bcnf_pk_spec ["A", "B", "C", "D"] [({"A"}, {"B"}), ({"B"}, {"C"})] 9
    {"A", "C", "D"} {"A", "C", "D"} (by decide)

/-- The nonempty proper subsets of a candidate key, as the 2NF check
enumerates them with `combinations(ck_set, k)` for `k = 1 .. |ck|-1`
(`normalization_routes.py` lines 98-101). -/
def properSubsetsList (c : Finset String) : List (Finset String) :=
  (List.range (c.card - 1)).flatMap
    (fun k => ((sortedList c).sublistsLen (k + 1)).map List.toFinset)

theorem mem_properSubsetsList {c s : Finset String} :
    s ∈ properSubsetsList c ↔ s ⊆ c ∧ s ≠ ∅ ∧ s ≠ c := by
  constructor
  · intro h
    obtain ⟨k, hk, hs⟩ := List.mem_flatMap.mp h
    obtain ⟨t, ht, rfl⟩ := List.mem_map.mp hs
    obtain ⟨htsub, htlen⟩ := List.mem_sublistsLen.mp ht
    have hk' := List.mem_range.mp hk
    have hsubc : t.toFinset ⊆ c := by
      intro x hx
      exact mem_sortedList.mp (htsub.subset (List.mem_toFinset.mp hx))
    have hcardlt : t.toFinset.card < c.card := by
      have h1 : t.toFinset.card ≤ t.length := List.toFinset_card_le t
      omega
    refine ⟨hsubc, ?_, ?_⟩
    · cases t with
      | nil => simp at htlen
      | cons a t' =>
        rw [List.toFinset_cons]
        exact Finset.insert_ne_empty _ _
    · intro habs
      rw [habs] at hcardlt
      omega
  · rintro ⟨hsub, hne, hnec⟩
    have hss : s ⊂ c := Finset.ssubset_iff_subset_ne.mpr ⟨hsub, hnec⟩
    have hlt : s.card < c.card := Finset.card_lt_card hss
    have hpos : 0 < s.card := Finset.card_pos.mpr (Finset.nonempty_iff_ne_empty.mpr hne)
    have hsub' : s ⊆ (sortedList c).toFinset := by rw [sortedList_toFinset]; exact hsub
    obtain ⟨t, ht1, ht2, ht3⟩ := exists_nodup_sublist hsub'
    refine List.mem_flatMap.mpr ⟨s.card - 1, List.mem_range.mpr (by omega), ?_⟩
    refine List.mem_map.mpr ⟨t, List.mem_sublistsLen.mpr ⟨ht1, by omega⟩, ht2⟩

/-- One subset test of the 2NF scan (`normalization_routes.py` lines
100-108): if the subset's closure determines a non-prime attribute, flip the
compliance flag and record the violation (deduplicated), else keep the state.
The source renders a violation as a display string built from the sorted
subset, the sorted determined set and the sorted candidate key; for the
sanitized attribute names at hand that rendering is injective, so violations
are modelled as the corresponding triples. -/
def twoNFStep (fds : List FD) (allA non_prime ck : Finset String)
    (st : Bool × List (Finset String × Finset String × Finset String))
    (s : Finset String) :
    Bool × List (Finset String × Finset String × Finset String) :=
  if calculate_closure s fds allA ∩ non_prime ≠ ∅ then
    (false,
      if (s, calculate_closure s fds allA ∩ non_prime, ck) ∈ st.2 then st.2
      else st.2 ++ [(s, calculate_closure s fds allA ∩ non_prime, ck)])
  else st

/-- One candidate key's 2NF scan (`normalization_routes.py` lines 96-108):
keys with more than one attribute have each nonempty proper subset tested. -/
def twoNFOuter (fds : List FD) (allA non_prime : Finset String)
    (st : Bool × List (Finset String × Finset String × Finset String))
    (ck : Finset String) :
    Bool × List (Finset String × Finset String × Finset String) :=
  if 1 < ck.card then (properSubsetsList ck).foldl (twoNFStep fds allA non_prime ck) st
  else st

/-- `prime_attributes = set(chain.from_iterable(candidate_keys_sets))`
(`normalization_routes.py` line 79). -/
def ckUnion (l : List (Finset String)) : Finset String :=
  l.foldl (· ∪ ·) ∅

/-- The 2NF analysis of `analyze_normalization` (`normalization_routes.py`
lines 71-111): candidate keys are computed from the processed FDs, the prime
attributes are their union, and each multi-attribute candidate key is scanned
for partial dependencies.  The Bool is `is_2nf`; the reported status is
`COMPLIANT` when it is `true` and `VIOLATION_DETECTED` otherwise. -/
def analyze2nf (attributes : List String) (processed_fds : List FD) :
    Bool × List (Finset String × Finset String × Finset String) :=
  (find_candidate_keys attributes processed_fds).foldl
    (twoNFOuter processed_fds attributes.toFinset
      (attributes.toFinset \ ckUnion (find_candidate_keys attributes processed_fds)))
    (true, [])

theorem twoNFStep_fold_status (fds : List FD) (allA np ck : Finset String) :
    ∀ (L : List (Finset String)) (st : Bool × List (Finset String × Finset String × Finset String)),
      (L.foldl (twoNFStep fds allA np ck) st).1 = true ↔
        (st.1 = true ∧ ∀ s ∈ L, calculate_closure s fds allA ∩ np = ∅) := by
  intro L
  induction L with
  | nil => intro st; simp
  | cons s t ih =>
    intro st
    rw [List.foldl_cons, ih]
    by_cases hdet : calculate_closure s fds allA ∩ np = ∅
    · rw [show twoNFStep fds allA np ck st s = st by rw [twoNFStep, if_neg (by simpa using hdet)]]
      simp only [List.mem_cons]
      constructor
      · rintro ⟨h1, h2⟩
        exact ⟨h1, fun u hu => hu.elim (fun he => he ▸ hdet) (h2 u)⟩
      · rintro ⟨h1, h2⟩
        exact ⟨h1, fun u hu => h2 u (Or.inr hu)⟩
    · have hfalse : (twoNFStep fds allA np ck st s).1 = false := by
        rw [twoNFStep, if_pos (by simpa using hdet)]
      constructor
      · rintro ⟨h1, -⟩
        rw [hfalse] at h1
        cases h1
      · rintro ⟨-, h2⟩
        exact absurd (h2 s (List.mem_cons_self s t)) hdet

theorem twoNFStep_fold_mono (fds : List FD) (allA np ck : Finset String)
    {x : Finset String × Finset String × Finset String} :
    ∀ (L : List (Finset String)) (st : Bool × List (Finset String × Finset String × Finset String)),
      x ∈ st.2 → x ∈ (L.foldl (twoNFStep fds allA np ck) st).2 := by
  intro L
  induction L with
  | nil => intro st h; exact h
  | cons s t ih =>
    intro st h
    rw [List.foldl_cons]
    refine ih _ ?_
    rw [twoNFStep]
    split
    · dsimp only
      split
      · exact h
      · exact List.mem_append.mpr (Or.inl h)
    · exact h

theorem twoNFStep_fold_self (fds : List FD) (allA np ck : Finset String)
    {s : Finset String}
    (hdet : calculate_closure s fds allA ∩ np ≠ ∅) :
    ∀ (L : List (Finset String)) (st : Bool × List (Finset String × Finset String × Finset String)),
      s ∈ L →
      (s, calculate_closure s fds allA ∩ np, ck) ∈ (L.foldl (twoNFStep fds allA np ck) st).2 := by
  intro L st hs
  obtain ⟨l₁, l₂, rfl⟩ := List.append_of_mem hs
  rw [List.foldl_append, List.foldl_cons]
  refine twoNFStep_fold_mono fds allA np ck _ _ ?_
  rw [twoNFStep, if_pos (by simpa using hdet)]
  dsimp only
  split
  · next hmem => exact hmem
  · exact List.mem_append.mpr (Or.inr (List.mem_singleton_self _))

theorem twoNFOuter_fold_status (fds : List FD) (allA np : Finset String) :
    ∀ (cks : List (Finset String))
      (st : Bool × List (Finset String × Finset String × Finset String)),
      (cks.foldl (twoNFOuter fds allA np) st).1 = true ↔
        (st.1 = true ∧ ∀ ck ∈ cks, 1 < ck.card →
          ∀ s ∈ properSubsetsList ck, calculate_closure s fds allA ∩ np = ∅) := by
  intro cks
  induction cks with
  | nil => intro st; simp
  | cons ck t ih =>
    intro st
    rw [List.foldl_cons, ih]
    simp only [List.mem_cons]
    by_cases hcard : 1 < ck.card
    · rw [show twoNFOuter fds allA np st ck =
        (properSubsetsList ck).foldl (twoNFStep fds allA np ck) st by
          rw [twoNFOuter, if_pos hcard]]
      rw [twoNFStep_fold_status]
      constructor
      · rintro ⟨⟨h1, h2⟩, h3⟩
        refine ⟨h1, fun u hu => hu.elim (fun he => he ▸ fun _ => h2) (fun hu' => h3 u hu')⟩
      · rintro ⟨h1, h2⟩
        exact ⟨⟨h1, h2 ck (Or.inl rfl) hcard⟩, fun u hu => h2 u (Or.inr hu)⟩
    · rw [show twoNFOuter fds allA np st ck = st by rw [twoNFOuter, if_neg hcard]]
      constructor
      · rintro ⟨h1, h2⟩
        refine ⟨h1, fun u hu => hu.elim (fun he => he ▸ fun hc => absurd hc hcard)
          (fun hu' => h2 u hu')⟩
      · rintro ⟨h1, h2⟩
        exact ⟨h1, fun u hu => h2 u (Or.inr hu)⟩

theorem twoNFOuter_fold_mono (fds : List FD) (allA np : Finset String)
    {x : Finset String × Finset String × Finset String} :
    ∀ (cks : List (Finset String))
      (st : Bool × List (Finset String × Finset String × Finset String)),
      x ∈ st.2 → x ∈ (cks.foldl (twoNFOuter fds allA np) st).2 := by
  intro cks
  induction cks with
  | nil => intro st h; exact h
  | cons ck t ih =>
    intro st h
    rw [List.foldl_cons]
    refine ih _ ?_
    rw [twoNFOuter]
    split
    · exact twoNFStep_fold_mono fds allA np ck _ _ h
    · exact h

theorem twoNFOuter_fold_self (fds : List FD) (allA np : Finset String)
    {ck s : Finset String}
    (hcard : 1 < ck.card) (hs : s ∈ properSubsetsList ck)
    (hdet : calculate_closure s fds allA ∩ np ≠ ∅) :
    ∀ (cks : List (Finset String))
      (st : Bool × List (Finset String × Finset String × Finset String)),
      ck ∈ cks →
      (s, calculate_closure s fds allA ∩ np, ck) ∈ (cks.foldl (twoNFOuter fds allA np) st).2 := by
  intro cks st hck
  obtain ⟨l₁, l₂, rfl⟩ := List.append_of_mem hck
  rw [List.foldl_append, List.foldl_cons]
  refine twoNFOuter_fold_mono fds allA np _ _ ?_
  rw [twoNFOuter, if_pos hcard]
  exact twoNFStep_fold_self fds allA np ck hdet _ _ hs

/-- C7: the 2NF analysis reports status `COMPLIANT` (flag `true`) iff for
every computed candidate key `c` with more than one attribute and every
nonempty proper subset `s ⊂ c`, the closure of `s` under the processed FDs
contains no non-prime attribute; and whenever such a subset does determine
non-prime attributes, the corresponding partial-dependency violation for `s`
(and its candidate key) is recorded. -/
theorem analyze2nf_spec (attributes : List String) (fds : List FD) :
    ((analyze2nf attributes fds).1 = true ↔
      (∀ c ∈ find_candidate_keys attributes fds, 1 < c.card →
        ∀ s, s ⊂ c → s ≠ ∅ →
          calculate_closure s fds attributes.toFinset ∩
            (attributes.toFinset \ ckUnion (find_candidate_keys attributes fds)) = ∅)) ∧
    (∀ c ∈ find_candidate_keys attributes fds, 1 < c.card →
      ∀ s, s ⊂ c → s ≠ ∅ →
        calculate_closure s fds attributes.toFinset ∩
          (attributes.toFinset \ ckUnion (find_candidate_keys attributes fds)) ≠ ∅ →
        (s, calculate_closure s fds attributes.toFinset ∩
            (attributes.toFinset \ ckUnion (find_candidate_keys attributes fds)), c) ∈
          (analyze2nf attributes fds).2) := by
  constructor
  · rw [analyze2nf, twoNFOuter_fold_status]
    constructor
    · rintro ⟨-, h⟩ c hc hcard s hss hsne
      exact h c hc hcard s (mem_properSubsetsList.mpr
        ⟨hss.subset, hsne, Finset.ssubset_iff_subset_ne.mp hss |>.2⟩)
    · intro h
      refine ⟨rfl, fun c hc hcard s hs => ?_⟩
      obtain ⟨h1, h2, h3⟩ := mem_properSubsetsList.mp hs
      exact h c hc hcard s (Finset.ssubset_iff_subset_ne.mpr ⟨h1, h3⟩) h2
  · intro c hc hcard s hss hsne hdet
    exact twoNFOuter_fold_self fds attributes.toFinset _ hcard
      (mem_properSubsetsList.mpr
        ⟨hss.subset, hsne, (Finset.ssubset_iff_subset_ne.mp hss).2⟩) hdet _ _ hc

/-- Witness for C7 on the concrete table `U = [A,B,C]`,
`F = {AB → C, C → B}` (candidate keys `{A,B}` and `{A,C}`; with every
attribute prime there is no partial dependency, so the status is
`COMPLIANT`). -/
theorem analyze2nf_spec_witness :
    (analyze2nf ["A", "B", "C"] [({"A", "B"}, {"C"}), ({"C"}, {"B"})]).1 = true :=
  (analyze2nf_spec ["A", "B", "C"] [({"A", "B"}, {"C"}), ({"C"}, {"B"})]).1.mpr
    (by
      intro c hc hcard s hss hsne
      rw [show (["A", "B", "C"] : List String).toFinset \
          ckUnion (find_candidate_keys ["A", "B", "C"]
            [({"A", "B"}, {"C"}), ({"C"}, {"B"})]) = ∅ by decide]
      exact Finset.inter_empty _)

/-- The reserved keyword list of `sanitize_identifier` (`helpers.py` lines
34-40). -/
def RESERVED_KEYWORDS : List String :=
  ["TABLE", "SELECT", "INSERT", "UPDATE", "DELETE", "WHERE", "FROM", "CREATE",
   "ALTER", "DROP", "INDEX", "KEY", "PRIMARY", "FOREIGN", "GROUP", "BY", "ORDER",
   "ASC", "DESC", "HAVING", "JOIN", "LEFT", "RIGHT", "INNER", "ON", "AS",
   "COUNT", "SUM", "AVG", "MIN", "MAX", "AND", "OR", "NOT", "NULL", "IS", "LIKE"]

def backtick : Char := Char.ofNat 96

/-- A character the sanitizer keeps: alphanumeric, underscore or dot
(`helpers.py` line 26).  Python's `str.isalnum` is Unicode-aware; the model
uses its ASCII behavior, on which none of the proved properties depend. -/
def keepChar (c : Char) : Bool := c.isAlphanum || c == '_' || c == '.'

/-- `helpers.py` line 26: fold spaces to `_`, then replace every character
not in `[A-Za-z0-9_.]` by `_`. -/
def sanitizeChars (l : List Char) : List Char :=
  (l.map (fun c => if c = ' ' then '_' else c)).map (fun c => if keepChar c then c else '_')

/-- `helpers.py` lines 28-29: prepend `col_` when the result is empty or does
not start with a letter or underscore. -/
def prefixIfBadStart (l : List Char) : List Char :=
  match l with
  | [] => "col_".data ++ l
  | c :: _ => if c.isAlpha || c == '_' then l else "col_".data ++ l

/-- `helpers.py` lines 41-42: prepend `col_` when the result has no dot and
its uppercasing is a reserved keyword.  (Python's Unicode `str.upper` is
modelled by `Char.toUpper` on each character.) -/
def prefixIfReserved (l : List Char) : List Char :=
  if '.' ∉ l ∧ String.mk (l.map Char.toUpper) ∈ RESERVED_KEYWORDS then "col_".data ++ l else l

/-- `helpers.py` line 45: double any backtick. -/
def escapeBackticks (l : List Char) : List Char :=
  l.flatMap (fun c => if c = backtick then [backtick, backtick] else [c])

/-- `sanitize_identifier` (`helpers.py` lines 22-47): `None` on a falsy
(empty) name, otherwise the four sanitation stages in order. -/
def sanitize_identifier (name : String) : Option String :=
  if name = "" then none
  else some (String.mk (escapeBackticks (prefixIfReserved (prefixIfBadStart
    (sanitizeChars name.data)))))

theorem keep_sanitizeChars (l : List Char) : ∀ c ∈ sanitizeChars l, keepChar c = true := by
  intro c hc
  rw [sanitizeChars] at hc
  obtain ⟨b, -, rfl⟩ := List.mem_map.mp hc
  split
  · next h => exact h
  · decide

theorem keep_col : ∀ c ∈ "col_".data, keepChar c = true := by decide

theorem keep_prefixIfBadStart {l : List Char} (h : ∀ c ∈ l, keepChar c = true) :
    ∀ c ∈ prefixIfBadStart l, keepChar c = true := by
  intro c hc
  rcases l with - | ⟨a, t⟩
  · exact keep_col c hc
  · rw [prefixIfBadStart] at hc
    revert hc
    split
    · exact h c
    · intro hc
      rcases List.mem_append.mp hc with h' | h'
      · exact keep_col c h'
      · exact h c h'

theorem keep_prefixIfReserved {l : List Char} (h : ∀ c ∈ l, keepChar c = true) :
    ∀ c ∈ prefixIfReserved l, keepChar c = true := by
  intro c hc
  rw [prefixIfReserved] at hc
  revert hc
  split
  · intro hc
    rcases List.mem_append.mp hc with h' | h'
    · exact keep_col c h'
    · exact h c h'
  · exact h c

theorem escapeBackticks_id {l : List Char} (h : ∀ c ∈ l, c ≠ backtick) :
    escapeBackticks l = l := by
  induction l with
  | nil => rfl
  | cons a t ih =>
    rw [escapeBackticks, List.flatMap_cons, if_neg (h a (List.mem_cons_self a t))]
    rw [show List.flatMap t (fun c => if c = backtick then [backtick, backtick] else [c]) =
      escapeBackticks t from rfl]
    rw [ih (fun c hc => h c (List.mem_cons_of_mem a hc))]
    rfl

theorem sanitizeChars_id {l : List Char} (h : ∀ c ∈ l, keepChar c = true) :
    sanitizeChars l = l := by
  induction l with
  | nil => rfl
  | cons a t ih =>
    have ha := h a (List.mem_cons_self a t)
    have haspace : a ≠ ' ' := by
      intro habs
      rw [habs] at ha
      exact absurd ha (by decide)
    rw [sanitizeChars, List.map_cons, List.map_cons, if_neg haspace, if_pos ha]
    rw [show ((t.map (fun c => if c = ' ' then '_' else c)).map
      (fun c => if keepChar c then c else '_')) = sanitizeChars t from rfl]
    rw [ih (fun c hc => h c (List.mem_cons_of_mem a hc))]

theorem head_prefixIfBadStart (l : List Char) :
    ∃ c rest, prefixIfBadStart l = c :: rest ∧ (c.isAlpha = true ∨ c = '_') := by
  rcases l with - | ⟨a, t⟩
  · exact ⟨'c', "ol_".data, rfl, Or.inl (by decide)⟩
  · rw [prefixIfBadStart]
    split
    · next hgood =>
      rcases Bool.or_eq_true_iff.mp hgood with h | h
      · exact ⟨a, t, rfl, Or.inl h⟩
      · exact ⟨a, t, rfl, Or.inr (by exact beq_iff_eq.mp h)⟩
    · exact ⟨'c', "ol_".data ++ (a :: t), rfl, Or.inl (by decide)⟩

theorem head_prefixIfReserved {l : List Char}
    (h : ∃ c rest, l = c :: rest ∧ (c.isAlpha = true ∨ c = '_')) :
    ∃ c rest, prefixIfReserved l = c :: rest ∧ (c.isAlpha = true ∨ c = '_') := by
  rw [prefixIfReserved]
  split
  · obtain ⟨c, rest, rfl, -⟩ := h
    exact ⟨'c', "ol_".data ++ (c :: rest), rfl, Or.inl (by decide)⟩
  · exact h

theorem underscore_not_reserved : ∀ w ∈ RESERVED_KEYWORDS, '_' ∉ w.data := by decide

theorem prefixIfReserved_stable (l : List Char) :
    '.' ∉ prefixIfReserved l →
    String.mk ((prefixIfReserved l).map Char.toUpper) ∉ RESERVED_KEYWORDS := by
  rw [prefixIfReserved]
  split
  · intro _hdot habs
    refine underscore_not_reserved _ habs ?_
    show '_' ∈ (("col_".data ++ l).map Char.toUpper)
    refine List.mem_map.mpr ⟨'_', ?_, by decide⟩
    exact List.mem_append.mpr (Or.inl (by decide))
  · next hcond =>
    intro hdot habs
    exact hcond ⟨hdot, habs⟩

/-- C8: `sanitize_identifier` is idempotent — whenever it returns a value,
applying it again to that value returns the same value. -/
theorem sanitize_identifier_idem (raw s : String) (h : sanitize_identifier raw = some s) :
    sanitize_identifier s = some s := by
  rw [sanitize_identifier] at h
  split at h
  · cases h
  · have hs : s = String.mk (escapeBackticks (prefixIfReserved (prefixIfBadStart
        (sanitizeChars raw.data)))) := (Option.some.injEq _ _ ▸ h).symm
    have hkeep2 : ∀ c ∈ prefixIfReserved (prefixIfBadStart (sanitizeChars raw.data)),
        keepChar c = true :=
      keep_prefixIfReserved (keep_prefixIfBadStart (keep_sanitizeChars raw.data))
    have hnobt : ∀ c ∈ prefixIfReserved (prefixIfBadStart (sanitizeChars raw.data)),
        c ≠ backtick := by
      intro c hc habs
      have := hkeep2 c hc
      rw [habs] at this
      exact absurd this (by decide)
    have hesc : escapeBackticks (prefixIfReserved (prefixIfBadStart
        (sanitizeChars raw.data))) = prefixIfReserved (prefixIfBadStart
        (sanitizeChars raw.data)) := escapeBackticks_id hnobt
    have hdata : s.data = prefixIfReserved (prefixIfBadStart (sanitizeChars raw.data)) := by
      rw [hs, hesc]
    have hkeep : ∀ c ∈ s.data, keepChar c = true := by rw [hdata]; exact hkeep2
    have hhead : ∃ c rest, s.data = c :: rest ∧ (c.isAlpha = true ∨ c = '_') := by
      rw [hdata]
      exact head_prefixIfReserved (head_prefixIfBadStart _)
    have hstable : '.' ∉ s.data → String.mk (s.data.map Char.toUpper) ∉ RESERVED_KEYWORDS := by
      rw [hdata]
      exact prefixIfReserved_stable _
    have hne : s ≠ "" := by
      intro habs
      obtain ⟨c, rest, hcr, -⟩ := hhead
      rw [habs] at hcr
      cases hcr
    rw [sanitize_identifier, if_neg hne]
    rw [sanitizeChars_id hkeep]
    have hpb : prefixIfBadStart s.data = s.data := by
      obtain ⟨c, rest, hcr, hgood⟩ := hhead
      have hcond : (c.isAlpha || c == '_') = true := by
        rcases hgood with h' | h'
        · exact Bool.or_eq_true_iff.mpr (Or.inl h')
        · exact Bool.or_eq_true_iff.mpr (Or.inr (beq_iff_eq.mpr h'))
      rw [hcr, prefixIfBadStart, if_pos hcond]
    rw [hpb]
    have hpr : prefixIfReserved s.data = s.data := by
      rw [prefixIfReserved]
      split
      · next hcond => exact absurd hcond.2 (hstable hcond.1)
      · rfl
    rw [hpr]
    have hnobt' : ∀ c ∈ s.data, c ≠ backtick := by
      intro c hc habs
      have := hkeep c hc
      rw [habs] at this
      exact absurd this (by decide)
    rw [escapeBackticks_id hnobt']

/-- Witness for C8: `sanitize_identifier "my col" = some "my_col"`, and
re-sanitizing `"my_col"` returns it unchanged. -/
theorem sanitize_identifier_idem_witness : sanitize_identifier "my_col" = some "my_col" :=
  sanitize_identifier_idem "my col" "my_col" (by decide)

/-- Operator whitelist (`helpers.py` line 7). -/
def ALLOWED_OPERATORS : List String :=
  ["=", "!=", ">", "<", ">=", "<=", "LIKE", "NOT LIKE", "IS NULL", "IS NOT NULL"]

def NULL_OPERATORS : List String := ["IS NULL", "IS NOT NULL"]

/-- Python `str(x).strip().upper()` on ASCII data: drop whitespace at both
ends, uppercase the rest. -/
def stripUpper (s : String) : String :=
  String.mk ((((s.data.dropWhile (·.isWhitespace)).reverse.dropWhile
    (·.isWhitespace)).reverse).map Char.toUpper)

/-- A WHERE condition record (`helpers.py` lines 55-61): the four values read
via `condition.get(...)`, `none` when a key is missing.  Values are opaque
(`V`): the builder forwards them to the parameter list and never inspects
them. -/
structure WhereCond (V : Type) where
  column : Option String
  operator : Option String
  value : Option V
  connector : Option String

/-- `str(condition.get('operator', '=')).strip().upper()` (`helpers.py` line 59). -/
def opOf {V : Type} (c : WhereCond V) : String := stripUpper (c.operator.getD "=")

/-- `str(condition.get('connector', 'AND')).strip().upper()` (`helpers.py` line 61). -/
def connOf {V : Type} (c : WhereCond V) : String := stripUpper (c.connector.getD "AND")

/-- A condition whose operator is `IS NULL` or `IS NOT NULL`. -/
def isNullOp {V : Type} (c : WhereCond V) : Prop := opOf c ∈ NULL_OPERATORS

instance {V : Type} (c : WhereCond V) : Decidable (isNullOp c) :=
  inferInstanceAs (Decidable (_ ∈ _))

/-- Python's `split('.', 1)` on the characters: `none` when there is no dot,
otherwise the parts before and after the first dot. -/
def splitFirstDot : List Char → Option (List Char × List Char)
  | [] => none
  | c :: t =>
    if c = '.' then some ([], t)
    else (splitFirstDot t).map (fun p => (c :: p.1, p.2))

/-- Python renders `None` into an f-string as the text `None`. -/
def optStr : Option String → String
  | none => "None"
  | some s => s

/-- `helpers.py` lines 73-77: split the column reference on the first dot and
backtick-quote the sanitized part(s). -/
def safeColRef (c : String) : String :=
  match splitFirstDot c.data with
  | none => "`" ++ optStr (sanitize_identifier c) ++ "`"
  | some (x, rest) =>
    "`" ++ optStr (sanitize_identifier (String.mk x)) ++ "`.`" ++
      optStr (sanitize_identifier (String.mk rest)) ++ "`"

/-- Processing of one condition of `build_where_clause` (`helpers.py` lines
55-89) at position `index`: the SQL tokens it contributes and the parameters
it appends, or the validation error it raises.  The connector is read only
when `index > 0`; a connector that strips to the empty string is falsy in
Python, so it escapes the `('AND', 'OR')` check and is not emitted. -/
def processWhereCond {V : Type} (index : Nat) (c : WhereCond V) :
    Except String (List String × List (Option V)) :=
  match c.column with
  | none => .error "Incomplete where condition (missing column)"
  | some col =>
    if col = "" then .error "Incomplete where condition (missing column)"
    else if opOf c ∉ ALLOWED_OPERATORS then .error "Invalid where operator"
    else if 0 < index ∧ connOf c ≠ "" ∧ connOf c ∉ ["AND", "OR"] then .error "Invalid connector"
    else if opOf c ∈ NULL_OPERATORS then
      .ok ((if 0 < index ∧ connOf c ≠ "" then [connOf c] else []) ++
        [safeColRef col ++ " " ++ opOf c], [])
    else
      .ok ((if 0 < index ∧ connOf c ≠ "" then [connOf c] else []) ++
        [safeColRef col ++ " " ++ opOf c ++ " %s"], [c.value])

/-- The `for index, condition in enumerate(conditions_list)` loop of
`build_where_clause`, accumulating clause parts and parameters. -/
def whereAux {V : Type} : List (WhereCond V) → Nat →
    Except String (List String × List (Option V))
  | [], _ => .ok ([], [])
  | c :: rest, index =>
    match processWhereCond index c with
    | .error e => .error e
    | .ok (p, q) =>
      match whereAux rest (index + 1) with
      | .error e => .error e
      | .ok (ps, qs) => .ok (p ++ ps, q ++ qs)

/-- `build_where_clause` (`helpers.py` lines 49-95). -/
def build_where_clause {V : Type} (conditions_list : List (WhereCond V)) :
    Except String (String × List (Option V)) :=
  match whereAux conditions_list 0 with
  | .error e => .error e
  | .ok (parts, params) =>
    if parts = [] then .ok ("", [])
    else .ok (String.intercalate " " parts, params)

/-- Shape equality of conditions: same column, operator and connector; the
values may differ. -/
def shapeEq {V : Type} (c c' : WhereCond V) : Prop :=
  c.column = c'.column ∧ c.operator = c'.operator ∧ c.connector = c'.connector

theorem processWhereCond_value_indep {V : Type} (index : Nat) (col op conn : Option String)
    (v v' : Option V) :
    processWhereCond index ⟨col, op, v, conn⟩ =
      Except.map (fun r => (r.1, r.2.map (fun _ => v)))
        (processWhereCond index ⟨col, op, v', conn⟩) := by
  rcases col with - | c
  · rfl
  · rw [processWhereCond, processWhereCond]
    simp only [opOf, connOf]
    split
    · rfl
    · split
      · rfl
      · split
        · rfl
        · split
          · rfl
          · rfl

theorem processWhereCond_ok {V : Type} {index : Nat} {c : WhereCond V}
    {p : List String} {q : List (Option V)}
    (h : processWhereCond index c = .ok (p, q)) :
    q = (if isNullOp c then [] else [c.value]) ∧ p ≠ [] := by
  rcases c with ⟨col, op, v, conn⟩
  rcases col with - | cl
  · cases h
  · rw [processWhereCond] at h
    dsimp only at h
    split at h
    · cases h
    · split at h
      · cases h
      · split at h
        · cases h
        · split at h
          · next hnull =>
            injection h with h'
            injection h' with h1 h2
            subst h1
            subst h2
            exact ⟨by simp [isNullOp, hnull], by simp⟩
          · next hnull =>
            injection h with h'
            injection h' with h1 h2
            subst h1
            subst h2
            exact ⟨by simp [isNullOp, hnull], by simp⟩

theorem whereAux_spec {V : Type} :
    ∀ (conds : List (WhereCond V)) (index : Nat) (parts : List String)
      (params : List (Option V)),
      whereAux conds index = .ok (parts, params) →
      params = (conds.filter (fun c => decide (¬ isNullOp c))).map (·.value) ∧
      (conds ≠ [] → parts ≠ []) := by
  intro conds
  induction conds with
  | nil =>
    intro index parts params h
    injection h with h'
    injection h' with h1 h2
    exact ⟨h2.symm, fun hne => absurd rfl hne⟩
  | cons c rest ih =>
    intro index parts params h
    rw [whereAux] at h
    rcases hp : processWhereCond index c with e | ⟨p, q⟩ <;> rw [hp] at h
    · cases h
    · rcases ha : whereAux rest (index + 1) with e | ⟨ps, qs⟩ <;> rw [ha] at h
      · cases h
      · injection h with h'
        injection h' with h1 h2
        subst h1
        subst h2
        obtain ⟨hq, hpne⟩ := processWhereCond_ok hp
        obtain ⟨hqs, -⟩ := ih (index + 1) ps qs ha
        constructor
        · rw [List.filter_cons]
          by_cases hn : isNullOp c
          · rw [hq, if_pos hn, if_neg (by simpa using hn)]
            exact hqs
          · rw [hq, if_neg hn, if_pos (by simpa using hn)]
            rw [List.map_cons, hqs]
            rfl
        · intro _hne habs
          exact hpne (List.append_eq_nil.mp habs).1

theorem whereAux_shape {V : Type} :
    ∀ {conds conds' : List (WhereCond V)}, List.Forall₂ shapeEq conds conds' →
      ∀ (index : Nat) (parts : List String) (params : List (Option V)),
        whereAux conds index = .ok (parts, params) →
        ∃ params', whereAux conds' index = .ok (parts, params') := by
  intro conds conds' hall
  induction hall with
  | nil =>
    intro index parts params h
    exact ⟨params, h⟩
  | @cons c c' rest rest' hsh _ ih =>
    intro index parts params h
    rw [whereAux] at h
    rcases hp : processWhereCond index c with e | ⟨p, q⟩ <;> rw [hp] at h
    · cases h
    · rcases ha : whereAux rest (index + 1) with e | ⟨ps, qs⟩ <;> rw [ha] at h
      · cases h
      · injection h with h'
        injection h' with h1 h2
        subst h1
        subst h2
        obtain ⟨ps', hps'⟩ := ih (index + 1) ps qs ha
        rcases c with ⟨col, op, v, conn⟩
        rcases c' with ⟨col', op', v', conn'⟩
        obtain ⟨e1, e2, e3⟩ := hsh
        dsimp only at e1 e2 e3
        subst e1
        subst e2
        subst e3
        have hvi := processWhereCond_value_indep index col op conn v v'
        rw [hp] at hvi
        rcases hp' : processWhereCond index (⟨col, op, v', conn⟩ : WhereCond V)
            with e | ⟨p', q'⟩ <;> rw [hp'] at hvi <;> simp only [Except.map] at hvi
        · cases hvi
        · injection hvi with h''
          injection h'' with h3 h4
          subst h3
          refine ⟨q' ++ ps', ?_⟩
          simp only [whereAux, hp', hps']

/-- C9: whenever `build_where_clause` succeeds, the parameter list is exactly
the `value` of each condition whose (defaulted, stripped, uppercased)
operator is not `IS NULL`/`IS NOT NULL`, in input order; and the SQL fragment
is independent of every user-supplied value — conditions with the same
columns, operators and connectors but arbitrary values yield the identical
fragment, so no value ever reaches the SQL text (values appear only as `%s`
placeholders bound to the parameter list). -/
theorem build_where_clause_spec {V : Type} (conds : List (WhereCond V)) (sql : String)
    (ps : List (Option V)) (h : build_where_clause conds = .ok (sql, ps)) :
    ps = (conds.filter (fun c => decide (¬ isNullOp c))).map (·.value) ∧
    (∀ conds' : List (WhereCond V), List.Forall₂ shapeEq conds conds' →
      ∃ ps', build_where_clause conds' = .ok (sql, ps')) := by
  rw [build_where_clause] at h
  rcases ha : whereAux conds 0 with e | ⟨parts, params⟩ <;> rw [ha] at h
  · cases h
  · dsimp only at h
    obtain ⟨hparams, hne⟩ := whereAux_spec conds 0 parts params ha
    by_cases hparts : parts = []
    · rw [if_pos hparts] at h
      injection h with h'
      injection h' with h1 h2
      subst h1
      subst h2
      have hcnil : conds = [] := by
        by_contra hcont
        exact hne hcont hparts
      subst hcnil
      refine ⟨rfl, ?_⟩
      intro conds' hall
      cases hall
      exact ⟨[], rfl⟩
    · rw [if_neg hparts] at h
      injection h with h'
      injection h' with h1 h2
      subst h1
      subst h2
      refine ⟨hparams, ?_⟩
      intro conds' hall
      obtain ⟨params', hparams'⟩ := whereAux_shape hall 0 parts params ha
      refine ⟨params', ?_⟩
      rw [build_where_clause, hparams']
      dsimp only
      rw [if_neg hparts]

/-- Witness for C9 at the spec's concrete scenario
`[{column a, op =, value 1}, {connector OR, column b, op IS NULL}]`,
yielding fragment `` `a` = %s OR `b` IS NULL `` and params `[1]`. -/
theorem build_where_clause_spec_witness :
    ([some 1] : List (Option Nat)) =
      (([(⟨some "a", some "=", some 1, none⟩ : WhereCond Nat),
          ⟨some "b", some "IS NULL", none, some "OR"⟩].filter
        (fun c => decide (¬ isNullOp c))).map (·.value)) ∧
    (∀ conds' : List (WhereCond Nat),
      List.Forall₂ shapeEq [(⟨some "a", some "=", some 1, none⟩ : WhereCond Nat),
        ⟨some "b", some "IS NULL", none, some "OR"⟩] conds' →
      ∃ ps', build_where_clause conds' = .ok ("`a` = %s OR `b` IS NULL", ps')) :=
  build_where_clause_spec
    [⟨some "a", some "=", some 1, none⟩, ⟨some "b", some "IS NULL", none, some "OR"⟩]
    "`a` = %s OR `b` IS NULL" [some 1] rfl

/-- C10 counterexample: a connector that is not `AND`/`OR` but strips to the
empty string (here `"  "`) on a LATER condition does NOT raise: Python's
`if connector` treats the stripped empty string as falsy, skips the
`('AND', 'OR')` whitelist check, emits no connector token, and the call
succeeds. -/
theorem build_where_clause_blank_connector_no_error :
    build_where_clause [(⟨some "a", some "=", some 1, none⟩ : WhereCond Nat),
        ⟨some "b", some "=", some 2, some "  "⟩] =
      .ok ("`a` = %s `b` = %s", [some 1, some 2]) ∧
    connOf (⟨some "b", some "=", some 2, some "  "⟩ : WhereCond Nat) ∉
      (["AND", "OR"] : List String) :=
  ⟨rfl, by decide⟩

theorem processWhereCond_zero_connector {V : Type} (col op : Option String) (v : Option V)
    (conn conn' : Option String) :
    processWhereCond 0 (⟨col, op, v, conn⟩ : WhereCond V) =
      processWhereCond 0 (⟨col, op, v, conn'⟩ : WhereCond V) := by
  rcases col with - | c
  · rfl
  · rw [processWhereCond, processWhereCond]
    simp only [opOf, connOf]
    simp [Nat.lt_irrefl]

theorem processWhereCond_invalid_connector {V : Type} {index : Nat} {c : WhereCond V}
    (hidx : 0 < index) (h1 : connOf c ≠ "")
    (h2 : connOf c ∉ (["AND", "OR"] : List String)) :
    ∃ e, processWhereCond index c = .error e := by
  rcases c with ⟨col, op, v, conn⟩
  rcases col with - | cl
  · exact ⟨_, rfl⟩
  · rw [processWhereCond]
    dsimp only
    split
    · exact ⟨_, rfl⟩
    · split
      · exact ⟨_, rfl⟩
      · rw [if_pos ⟨hidx, h1, h2⟩]
        exact ⟨_, rfl⟩

theorem whereAux_invalid_connector {V : Type} :
    ∀ (conds : List (WhereCond V)) (index : Nat), 0 < index →
      (∃ c ∈ conds, connOf c ≠ "" ∧ connOf c ∉ (["AND", "OR"] : List String)) →
      ∃ e, whereAux conds index = .error e := by
  intro conds
  induction conds with
  | nil =>
    rintro index - ⟨c, hc, -⟩
    cases hc
  | cons c rest ih =>
    rintro index hidx ⟨d, hd, hd1, hd2⟩
    rcases hp : processWhereCond index c with e | ⟨p, q⟩
    · exact ⟨e, by simp only [whereAux, hp]⟩
    · rcases List.mem_cons.mp hd with rfl | hd'
      · obtain ⟨e, he⟩ := processWhereCond_invalid_connector hidx hd1 hd2
        rw [he] at hp
        cases hp
      · obtain ⟨e, he⟩ := ih (index + 1) (Nat.succ_pos index) ⟨d, hd', hd1, hd2⟩
        exact ⟨e, by simp only [whereAux, hp, he]⟩

/-- C10 (amended: connectors that strip to the empty string are treated as
absent): `build_where_clause` never reads the first condition's connector —
its output is unchanged under every replacement of that connector, so an
invalid connector such as `XOR` there never raises — while an invalid
connector whose stripped uppercasing is non-empty (e.g. `XOR`) on any later
condition always makes the call raise a validation error. -/
theorem build_where_clause_connector_spec {V : Type} :
    (∀ (c : WhereCond V) (rest : List (WhereCond V)) (v : Option String),
      build_where_clause ((⟨c.column, c.operator, c.value, v⟩ : WhereCond V) :: rest) =
        build_where_clause (c :: rest)) ∧
    (∀ (conds : List (WhereCond V)) (i : Nat) (hi : i < conds.length), 0 < i →
      connOf (conds.get ⟨i, hi⟩) ≠ "" →
      connOf (conds.get ⟨i, hi⟩) ∉ (["AND", "OR"] : List String) →
      ∃ e, build_where_clause conds = .error e) := by
  constructor
  · intro c rest v
    rcases c with ⟨col, op, val, conn⟩
    simp only [build_where_clause, whereAux,
      processWhereCond_zero_connector col op val v conn]
  · intro conds i hi hpos h1 h2
    rcases conds with - | ⟨c0, rest⟩
    · exact absurd hi (by simp)
    · rcases i with - | j
      · exact absurd hpos (lt_irrefl 0)
      · have hmem : (c0 :: rest).get ⟨j + 1, hi⟩ ∈ rest := by
          have hget : (c0 :: rest).get ⟨j + 1, hi⟩ =
              rest.get ⟨j, Nat.lt_of_succ_lt_succ hi⟩ := rfl
          rw [hget]
          exact List.get_mem rest j (Nat.lt_of_succ_lt_succ hi)
        rcases hp : processWhereCond 0 c0 with e | ⟨p, q⟩
        · exact ⟨e, by rw [build_where_clause]; simp only [whereAux, hp]⟩
        · obtain ⟨e, he⟩ := whereAux_invalid_connector rest 1 Nat.one_pos
            ⟨(c0 :: rest).get ⟨j + 1, hi⟩, hmem, h1, h2⟩
          exact ⟨e, by rw [build_where_clause]; simp only [whereAux, hp, he]⟩

/-- Witness for the amended C10: replacing the first condition's connector by
`XOR` leaves the output unchanged, while `XOR` on the second condition makes
the call raise. -/
theorem build_where_clause_connector_spec_witness :
    build_where_clause [(⟨some "a", some "=", some 1, some "XOR"⟩ : WhereCond Nat)] =
        build_where_clause [(⟨some "a", some "=", some 1, none⟩ : WhereCond Nat)] ∧
    ∃ e, build_where_clause [(⟨some "a", some "=", some 1, none⟩ : WhereCond Nat),
        ⟨some "b", some "=", some 2, some "XOR"⟩] = .error e :=
  ⟨(build_where_clause_connector_spec (V := Nat)).1
      ⟨some "a", some "=", some 1, none⟩ [] (some "XOR"),
   (build_where_clause_connector_spec (V := Nat)).2
      [⟨some "a", some "=", some 1, none⟩, ⟨some "b", some "=", some 2, some "XOR"⟩]
      1 (by decide) (by decide) (by decide) (by decide)⟩
